import Mathlib

/-!
Verification of the haplotype-caller core: shallow embedding of the cigar
model, interval arithmetic, Smith-Waterman aligner, assembler retry loop,
pair-HMM likelihood engine, genotyper emission gates, and duplicate-kmer
detection, translated from the C++ sources.
-/

namespace HC

/-! ## Cigar textual serialization and parsing (cigar.hpp) -/

/-- The nine cigar operator characters of the data model. -/
def cigarOpChars : List Char := ['M', 'I', 'D', 'N', 'S', 'H', 'P', '=', 'X']

/-- Decimal digit characters of a natural number, as produced by
std::to_string. -/
def natToChars (n : Nat) : List Char :=
  if h : n < 10 then [Nat.digitChar n]
  else natToChars (n / 10) ++ [Nat.digitChar (n % 10)]
decreasing_by exact Nat.div_lt_self (by omega) (by omega)

/-- Numeric value of a digit character, as computed in C++ by subtracting
the code of the zero digit. -/
def charVal (c : Char) : Nat := c.toNat - 48

/-- The digit-accumulation loop of to_cigar: consume leading digit characters
into an accumulator, return the value and the remaining characters. -/
def parseNum (acc : Nat) : List Char → Nat × List Char
  | [] => (acc, [])
  | c :: cs => if c.isDigit then parseNum (acc * 10 + charVal c) cs else (acc, c :: cs)

theorem parseNum_snd_length (acc : Nat) (l : List Char) :
    (parseNum acc l).2.length ≤ l.length := by
  induction l generalizing acc with
  | nil => simp [parseNum]
  | cons c cs ih =>
    simp only [parseNum]
    split
    · exact le_trans (ih _) (Nat.le_succ _)
    · simp

/-- Model of to_cigar from cigar.hpp: the first character of each element is
read as a digit unconditionally, further digits are accumulated, and the next
character is taken as the operator.  When the string ends inside a number the
C++ code reads the terminating NUL of std::string, which we model as the
character with code 0. -/
def to_cigar : List Char → List (Nat × Char)
  | [] => []
  | c :: cs =>
    match h : parseNum (charVal c) cs with
    | (n, op :: rest) => (n, op) :: to_cigar rest
    | (n, []) => [(n, Char.ofNat 0)]
termination_by l => l.length
decreasing_by
  have := parseNum_snd_length (charVal c) cs
  rw [h] at this
  simp at this
  simp
  omega

theorem to_cigar_cons_eq (c : Char) (cs : List Char) (n : Nat) (op : Char)
    (rest : List Char) (h : parseNum (charVal c) cs = (n, op :: rest)) :
    to_cigar (c :: cs) = (n, op) :: to_cigar rest := by
  rw [to_cigar]
  split
  · rename_i n2 op2 rest2 heq
    rw [h] at heq
    cases heq
    rfl
  · rename_i n2 heq
    rw [h] at heq
    cases heq

/-- Model of to_string from cigar.hpp: concatenate the decimal form of each
length followed by its operator character. -/
def cigarToString (cigar : List (Nat × Char)) : List Char :=
  match cigar with
  | [] => []
  | (n, op) :: rest => natToChars n ++ op :: cigarToString rest

theorem natToChars_ne_nil (n : Nat) : natToChars n ≠ [] := by
  rw [natToChars]
  split <;> simp

theorem natToChars_digits (n : Nat) : ∀ c ∈ natToChars n, c.isDigit := by
  induction n using Nat.strong_induction_on with
  | _ n ih =>
    rw [natToChars]
    split
    · rename_i h
      intro c hc
      simp only [List.mem_singleton] at hc
      subst hc
      interval_cases n <;> decide
    · rename_i h
      intro c hc
      simp only [List.mem_append, List.mem_singleton] at hc
      rcases hc with hc | hc
      · exact ih (n / 10) (Nat.div_lt_self (by omega) (by omega)) c hc
      · subst hc
        have : n % 10 < 10 := Nat.mod_lt _ (by omega)
        interval_cases h : n % 10 <;> decide

theorem charVal_digitChar (k : Nat) (h : k < 10) : charVal (Nat.digitChar k) = k := by
  interval_cases k <;> decide

/-- Folding the digit-accumulation step over a digit string. -/
def digitsVal (acc : Nat) (l : List Char) : Nat :=
  l.foldl (fun a c => a * 10 + charVal c) acc

theorem digitsVal_append (acc : Nat) (l₁ l₂ : List Char) :
    digitsVal acc (l₁ ++ l₂) = digitsVal (digitsVal acc l₁) l₂ := by
  simp [digitsVal, List.foldl_append]

theorem digitsVal_natToChars (acc n : Nat) :
    digitsVal acc (natToChars n) = acc * 10 ^ (natToChars n).length + n := by
  induction n using Nat.strong_induction_on generalizing acc with
  | _ n ih =>
    rw [natToChars]
    split
    · rename_i h
      simp [digitsVal, charVal_digitChar n h]
    · rename_i h
      rw [digitsVal_append]
      have hlt : n / 10 < n := Nat.div_lt_self (by omega) (by omega)
      rw [ih (n / 10) hlt acc]
      have hm : n % 10 < 10 := Nat.mod_lt _ (by omega)
      simp only [digitsVal, List.foldl_cons, List.foldl_nil, List.length_append,
        List.length_singleton]
      rw [charVal_digitChar _ hm]
      rw [pow_succ]
      have := Nat.div_add_mod n 10
      ring_nf
      omega

theorem parseNum_digits_append (acc : Nat) (digits rest : List Char)
    (hd : ∀ c ∈ digits, c.isDigit)
    (hr : ∀ c ∈ rest.head?, ¬ c.isDigit) :
    parseNum acc (digits ++ rest) = (digitsVal acc digits, rest) := by
  induction digits generalizing acc with
  | nil =>
    simp only [List.nil_append, digitsVal, List.foldl_nil]
    cases rest with
    | nil => simp [parseNum]
    | cons c cs =>
      simp only [List.head?_cons, Option.mem_some_iff] at hr
      simp [parseNum, hr c rfl]
  | cons c cs ih =>
    simp only [List.cons_append, parseNum]
    rw [if_pos (hd c (List.mem_cons_self _ _))]
    rw [show cs.append rest = cs ++ rest from rfl]
    rw [ih _ (fun x hx => hd x (List.mem_cons_of_mem _ hx))]
    simp [digitsVal]

/-- Round-trip of a single serialized element followed by more text. -/
theorem to_cigar_cons (n : Nat) (op : Char) (rest : List Char)
    (hop : ¬ op.isDigit) :
    to_cigar (natToChars n ++ op :: rest) = (n, op) :: to_cigar rest := by
  obtain ⟨d, ds, hds⟩ : ∃ d ds, natToChars n = d :: ds := by
    cases h : natToChars n with
    | nil => exact absurd h (natToChars_ne_nil n)
    | cons d ds => exact ⟨d, ds, rfl⟩
  rw [hds]
  simp only [List.cons_append]
  have hdig : ∀ c ∈ ds, c.isDigit := by
    intro c hc
    exact natToChars_digits n c (hds ▸ List.mem_cons_of_mem _ hc)
  have hsplit : parseNum (charVal d) (ds ++ op :: rest) =
      (digitsVal (charVal d) ds, op :: rest) := by
    apply parseNum_digits_append
    · exact hdig
    · intro c hc
      simp only [List.head?_cons, Option.mem_some_iff] at hc
      subst hc
      exact hop
  have hval : digitsVal (charVal d) ds = n := by
    have := digitsVal_natToChars 0 n
    rw [hds] at this
    simpa [digitsVal] using this
  exact to_cigar_cons_eq d _ n op _ (by rw [hsplit, hval])

theorem opChar_not_digit (op : Char) (h : op ∈ cigarOpChars) : ¬ op.isDigit := by
  fin_cases h <;> decide

/-- C8: for every cigar whose operators are the nine cigar operator
characters of the data model, serializing with to_string and parsing back
with to_cigar returns the original cigar; the empty cigar round-trips. -/
theorem cigar_roundtrip (cigar : List (Nat × Char))
    (hops : ∀ e ∈ cigar, e.2 ∈ cigarOpChars) :
    to_cigar (cigarToString cigar) = cigar := by
  induction cigar with
  | nil => simp [cigarToString, to_cigar]
  | cons e rest ih =>
    obtain ⟨n, op⟩ := e
    rw [cigarToString, to_cigar_cons n op _
      (opChar_not_digit op (hops _ (List.mem_cons_self _ _)))]
    rw [ih (fun x hx => hops x (List.mem_cons_of_mem _ hx))]

theorem cigar_roundtrip_witness :
    ((∀ e ∈ ([(12, 'M'), (0, 'I'), (305, 'S')] : List (Nat × Char)), e.2 ∈ cigarOpChars) ∧
      to_cigar (cigarToString [(12, 'M'), (0, 'I'), (305, 'S')]) =
        [(12, 'M'), (0, 'I'), (305, 'S')]) ∧
    to_cigar (cigarToString []) = [] :=
  ⟨⟨by decide, cigar_roundtrip [(12, 'M'), (0, 'I'), (305, 'S')] (by decide)⟩,
    cigar_roundtrip [] (by decide)⟩

/-! ## Intervals (interval.hpp) -/

/-- Modulus of the C++ type std::size_t. -/
def U64 : Nat := 2 ^ 64

/-- Addition of std::size_t values. -/
def add64 (a b : Nat) : Nat := (a + b) % U64

/-- Subtraction of std::size_t values (wraps around on underflow). -/
def sub64 (a b : Nat) : Nat := (a % U64 + (U64 - b % U64)) % U64

/-- Half-open interval on a contig, as in interval.hpp. -/
structure Interval where
  contig : String
  lo : Nat
  hi : Nat
deriving DecidableEq, Repr

instance {ε α : Type} [DecidableEq ε] [DecidableEq α] : DecidableEq (Except ε α) :=
  fun a b =>
  match a, b with
  | .ok x, .ok y => decidable_of_iff (x = y) (by simp)
  | .error x, .error y => decidable_of_iff (x = y) (by simp)
  | .ok _, .error _ => isFalse (by simp)
  | .error _, .ok _ => isFalse (by simp)

/-- Validity check of Interval::is_valid: end at or after begin. -/
def Interval.is_valid (i : Interval) : Bool := decide (i.hi ≥ i.lo)

/-- The checked Interval constructor: throws invalid_argument when end is
before begin. -/
def mkInterval (contig : String) (lo hi : Nat) : Except String Interval :=
  let i : Interval := ⟨contig, lo, hi⟩
  if i.is_valid then .ok i else .error "Interval::Interval(std::string, std::size_t, std::size_t)"

/-- Model of Interval::expand_within_contig: size_t arithmetic on both ends,
then the checked constructor. -/
def Interval.expand_within_contig (i : Interval) (padding : Nat) : Except String Interval :=
  mkInterval i.contig (sub64 i.lo padding) (add64 i.hi padding)

/-- C3 counterexample: expanding the interval with begin 0 and end 1 by
padding 2 does not return the interval with begin 0 and end 3; the size_t
subtraction wraps around and the constructor rejects the result. -/
theorem expand_within_contig_not_saturating :
    (Interval.mk "contig" 0 1).expand_within_contig 2 ≠
      Except.ok (Interval.mk "contig" 0 3) ∧
    (Interval.mk "contig" 0 1).expand_within_contig 2 =
      Except.error "Interval::Interval(std::string, std::size_t, std::size_t)" := by
  constructor
  · decide
  · decide

/-- C3 amended: for every interval with begin and end below the size_t
modulus, and every padding p with p at most begin and end + p below the
modulus, expand_within_contig succeeds and returns the interval
[begin - p, end + p); when begin is below p the call instead fails in the
Interval constructor because the unsigned subtraction wraps around (shown
by the counterexample). -/
theorem expand_within_contig_ok (c : String) (lo hi p : Nat)
    (hlo : lo < U64) (hhi : hi + p < U64) (hple : p ≤ lo) (hvalid : lo ≤ hi) :
    (Interval.mk c lo hi).expand_within_contig p =
      Except.ok (Interval.mk c (lo - p) (hi + p)) := by
  have hp : p < U64 := by omega
  have h1 : sub64 lo p = lo - p := by
    unfold sub64 U64 at *
    rw [Nat.mod_eq_of_lt hlo, Nat.mod_eq_of_lt hp]
    rw [show lo + (2 ^ 64 - p) = 2 ^ 64 + (lo - p) by omega]
    rw [Nat.add_mod_left]
    exact Nat.mod_eq_of_lt (by omega)
  have h2 : add64 hi p = hi + p := by
    unfold add64
    exact Nat.mod_eq_of_lt hhi
  unfold Interval.expand_within_contig
  rw [h1, h2]
  unfold mkInterval
  rw [if_pos]
  simp only [Interval.is_valid, ge_iff_le, decide_eq_true_eq]
  omega

theorem expand_within_contig_ok_witness :
    (5 < U64 ∧ 9 + 2 < U64 ∧ 2 ≤ 5 ∧ 5 ≤ 9) ∧
    (Interval.mk "chr1" 5 9).expand_within_contig 2 =
      Except.ok (Interval.mk "chr1" 3 11) :=
  ⟨⟨by norm_num [U64], by norm_num [U64], by norm_num, by norm_num⟩,
    expand_within_contig_ok "chr1" 5 9 2 (by norm_num [U64]) (by norm_num [U64])
      (by norm_num) (by norm_num)⟩

/-! ## Assembler retry loop (src/haplotypecaller/assembler/assembler.hpp)

The per-kmer-size attempt builds a de Bruijn graph and is modelled
parametrically over the three graph observations it gates on: the unique-kmer
count, the cycle test, and the enumerated paths, each as a function of the
kmer size. -/

/-- INITIAL_KMER_SIZE. -/
def INITIAL_KMER_SIZE : Nat := 25

/-- KMER_SIZE_ITERATION_INCREASE. -/
def KMER_SIZE_ITERATION_INCREASE : Nat := 10

/-- MAX_KMER_ITERATIONS_TO_ATTEMPT. -/
def MAX_KMER_ITERATIONS_TO_ATTEMPT : Nat := 9

/-- MAX_UNIQUE_KMERS_COUNT_TO_DISCARD. -/
def MAX_UNIQUE_KMERS_COUNT_TO_DISCARD : Nat := 2000

/-- The private Assembler::assemble overload for one kmer size: reject when
the reference is shorter than the kmer size, when the built graph has more
than MAX_UNIQUE_KMERS_COUNT_TO_DISCARD unique kmers, or when it has a cycle;
otherwise return the enumerated paths. -/
def subAssemble {α : Type} (refLen : Nat) (uniq : Nat → Nat) (cyc : Nat → Bool)
    (paths : Nat → List α) (k : Nat) : List α :=
  if refLen < k then []
  else if uniq k > MAX_UNIQUE_KMERS_COUNT_TO_DISCARD then []
  else if cyc k then []
  else paths k

/-- The while loop of the public Assembler::assemble: while the attempt
returned no haplotypes and fewer than MAX_KMER_ITERATIONS_TO_ATTEMPT
iterations have run, retry with the kmer size increased by
KMER_SIZE_ITERATION_INCREASE. -/
def assembleLoop {α : Type} (refLen : Nat) (uniq : Nat → Nat) (cyc : Nat → Bool)
    (paths : Nat → List α) (iterations kmer : Nat) (haplotypes : List α) : List α :=
  if haplotypes.isEmpty ∧ iterations < MAX_KMER_ITERATIONS_TO_ATTEMPT then
    assembleLoop refLen uniq cyc paths (iterations + 1)
      (kmer + KMER_SIZE_ITERATION_INCREASE)
      (subAssemble refLen uniq cyc paths (kmer + KMER_SIZE_ITERATION_INCREASE))
  else haplotypes
termination_by MAX_KMER_ITERATIONS_TO_ATTEMPT - iterations
decreasing_by omega

/-- The public Assembler::assemble: first attempt at INITIAL_KMER_SIZE, then
the retry loop starting with the iteration counter at 1. -/
def assemble {α : Type} (refLen : Nat) (uniq : Nat → Nat) (cyc : Nat → Bool)
    (paths : Nat → List α) : List α :=
  assembleLoop refLen uniq cyc paths 1 INITIAL_KMER_SIZE
    (subAssemble refLen uniq cyc paths INITIAL_KMER_SIZE)

theorem assembleLoop_spec {α : Type} (refLen : Nat) (uniq : Nat → Nat)
    (cyc : Nat → Bool) (paths : Nat → List α) :
    ∀ (fuel it kmer : Nat) (hs : List α), it + fuel = MAX_KMER_ITERATIONS_TO_ATTEMPT →
    assembleLoop refLen uniq cyc paths it kmer hs =
      ((hs :: (List.range fuel).map fun i =>
          subAssemble refLen uniq cyc paths (kmer + 10 * (i + 1))).find?
        (fun l => !l.isEmpty)).getD [] := by
  intro fuel
  induction fuel with
  | zero =>
    intro it kmer hs hit
    simp only [MAX_KMER_ITERATIONS_TO_ATTEMPT] at hit
    rw [assembleLoop]
    rw [if_neg (by simp only [MAX_KMER_ITERATIONS_TO_ATTEMPT]; omega)]
    cases hs <;> simp [List.find?_cons]
  | succ fuel ih =>
    intro it kmer hs hit
    simp only [MAX_KMER_ITERATIONS_TO_ATTEMPT] at hit
    rw [assembleLoop]
    by_cases hempty : hs = []
    · subst hempty
      rw [if_pos ⟨by simp, by simp only [MAX_KMER_ITERATIONS_TO_ATTEMPT]; omega⟩]
      rw [ih (it + 1) (kmer + KMER_SIZE_ITERATION_INCREASE) _
        (by simp only [MAX_KMER_ITERATIONS_TO_ATTEMPT]; omega)]
      have hlist : (List.range (fuel + 1)).map
            (fun i => subAssemble refLen uniq cyc paths (kmer + 10 * (i + 1))) =
          subAssemble refLen uniq cyc paths (kmer + KMER_SIZE_ITERATION_INCREASE) ::
            (List.range fuel).map (fun i => subAssemble refLen uniq cyc paths
              (kmer + KMER_SIZE_ITERATION_INCREASE + 10 * (i + 1))) := by
        simp only [List.range_succ_eq_map, List.map_cons, List.map_map, List.cons.injEq]
        refine ⟨by congr 1, ?_⟩
        apply List.map_congr_left
        intro a ha
        simp only [Function.comp_apply, KMER_SIZE_ITERATION_INCREASE]
        congr 1
        omega
      conv_rhs => rw [hlist, List.find?_cons_of_neg _ (by simp)]
    · rw [if_neg (by simp [hempty])]
      rcases List.exists_cons_of_ne_nil hempty with ⟨a, t, rfl⟩
      simp [List.find?_cons]

/-- C2: the assembler tries kmer sizes 25, 35, ..., one per iteration for at
most 9 iterations in total, stopping at the first attempt that returns
haplotypes (and returning no haplotypes when all 9 attempts fail); and an
attempt at kmer size k returns no haplotypes whenever the unique-kmer count
at k exceeds 2000. -/
theorem assembler_retry_loop {α : Type} (refLen : Nat) (uniq : Nat → Nat)
    (cyc : Nat → Bool) (paths : Nat → List α) :
    (assemble refLen uniq cyc paths =
      (((List.range 9).map fun i =>
          subAssemble refLen uniq cyc paths (25 + 10 * i)).find?
        (fun l => !l.isEmpty)).getD []) ∧
    ∀ k, 2000 < uniq k → subAssemble refLen uniq cyc paths k = [] := by
  constructor
  · rw [assemble, assembleLoop_spec refLen uniq cyc paths 8 1 INITIAL_KMER_SIZE _ (by decide)]
    have hlist : (List.range 9).map
          (fun i => subAssemble refLen uniq cyc paths (25 + 10 * i)) =
        subAssemble refLen uniq cyc paths INITIAL_KMER_SIZE ::
          (List.range 8).map (fun i => subAssemble refLen uniq cyc paths
            (INITIAL_KMER_SIZE + 10 * (i + 1))) := by
      norm_num [List.range_succ, INITIAL_KMER_SIZE]
    rw [hlist]
  · intro k hk
    unfold subAssemble
    split
    · rfl
    · rw [if_pos]
      exact hk

/-- Witness for C2 at concrete graph observations: with 3000 unique kmers at
kmer size 25 and the paths function returning [7] from kmer size 35 on, the
assembler returns [7], and the attempt at kmer size 25 is rejected. -/
theorem assembler_retry_loop_witness :
    (assemble 200 (fun k => if k = 25 then 3000 else 1) (fun _ => false)
        (fun k => if k = 25 then [] else [7]) =
      ((((List.range 9).map fun i =>
          subAssemble 200 (fun k => if k = 25 then 3000 else 1) (fun _ => false)
            (fun k => if k = 25 then [] else [(7 : Nat)]) (25 + 10 * i))).find?
        (fun l => !l.isEmpty)).getD []) ∧
    (2000 < (if (25 : Nat) = 25 then 3000 else 1) ∧
      subAssemble 200 (fun k => if k = 25 then 3000 else 1) (fun _ => false)
        (fun k => if k = 25 then [] else [(7 : Nat)]) 25 = []) :=
  ⟨(assembler_retry_loop 200 _ _ _).1,
    ⟨by decide,
      (assembler_retry_loop 200 (fun k => if k = 25 then 3000 else 1) (fun _ => false)
        (fun k => if k = 25 then [] else [(7 : Nat)])).2 25 (by decide)⟩⟩

/-! ## Duplicate kmer detection and read segmentation (graph_wrapper.hpp) -/

/-- The length-k window of s starting at position i. -/
def kmerAt (s : List Char) (k i : Nat) : List Char := (s.drop i).take k

/-- One iteration of the GraphWrapper::get_dup_kmers loop: insert the window
into the set of all kmers, and into the duplicate set when it was already
present. -/
def dupStep (s : List Char) (k : Nat)
    (st : Finset (List Char) × Finset (List Char)) (i : Nat) :
    Finset (List Char) × Finset (List Char) :=
  let kmer := kmerAt s k i
  if kmer ∈ st.1 then (st.1, insert kmer st.2) else (insert kmer st.1, st.2)

/-- Model of GraphWrapper::get_dup_kmers: iterate i from 0 through
|seq| - size inclusive, collecting windows seen more than once. -/
def get_dup_kmers (s : List Char) (k : Nat) : Finset (List Char) :=
  ((List.range (s.length - k + 1)).foldl (dupStep s k) (∅, ∅)).2

theorem dupStep_fold_mem (s : List Char) (k : Nat) :
    ∀ (idxs : List Nat) (all dup : Finset (List Char)) (w : List Char),
    (w ∈ (idxs.foldl (dupStep s k) (all, dup)).2 ↔
      w ∈ dup ∨ (w ∈ all ∧ 1 ≤ idxs.countP (fun i => kmerAt s k i == w)) ∨
        2 ≤ idxs.countP (fun i => kmerAt s k i == w)) := by
  intro idxs
  induction idxs with
  | nil => simp
  | cons i rest ih =>
    intro all dup w
    rw [List.foldl_cons, List.countP_cons]
    by_cases hw : kmerAt s k i = w
    · have hbeq : (kmerAt s k i == w) = true := by simp [hw]
      rw [if_pos hbeq]
      subst hw
      by_cases hmem : kmerAt s k i ∈ all
      · rw [show dupStep s k (all, dup) i = (all, insert (kmerAt s k i) dup) by
          unfold dupStep; rw [if_pos hmem]]
        rw [ih]
        constructor
        · intro _
          exact Or.inr (Or.inl ⟨hmem, by omega⟩)
        · intro _
          exact Or.inl (Finset.mem_insert_self _ _)
      · rw [show dupStep s k (all, dup) i = (insert (kmerAt s k i) all, dup) by
          unfold dupStep; rw [if_neg hmem]]
        rw [ih]
        constructor
        · rintro (hd | ⟨h1, h2⟩ | h2)
          · exact Or.inl hd
          · exact Or.inr (Or.inr (by omega))
          · exact Or.inr (Or.inr (by omega))
        · rintro (hd | ⟨h1, h2⟩ | h2)
          · exact Or.inl hd
          · exact absurd h1 hmem
          · exact Or.inr (Or.inl ⟨Finset.mem_insert_self _ _, by omega⟩)
    · have hbeq : (kmerAt s k i == w) = false := by simp [hw]
      rw [if_neg (by simp [hbeq]), add_zero]
      by_cases hmem : kmerAt s k i ∈ all
      · rw [show dupStep s k (all, dup) i = (all, insert (kmerAt s k i) dup) by
          unfold dupStep; rw [if_pos hmem]]
        rw [ih]
        have hne : w ∈ insert (kmerAt s k i) dup ↔ w ∈ dup := by
          rw [Finset.mem_insert]
          constructor
          · rintro (h1 | h1)
            · exact absurd h1.symm hw
            · exact h1
          · exact Or.inr
        rw [hne]
      · rw [show dupStep s k (all, dup) i = (insert (kmerAt s k i) all, dup) by
          unfold dupStep; rw [if_neg hmem]]
        rw [ih]
        have hne : w ∈ insert (kmerAt s k i) all ↔ w ∈ all := by
          rw [Finset.mem_insert]
          constructor
          · rintro (h1 | h1)
            · exact absurd h1.symm hw
            · exact h1
          · exact Or.inr
        rw [hne]

/-- Usability test of GraphWrapper::set_read: not the base N, and quality at
least the minimum base quality. -/
def is_usable (minq : Nat) (base : Char) (q : Nat) : Bool :=
  base ≠ 'N' && minq ≤ q

/-- One iteration of the GraphWrapper::set_read segmentation loop over
position i, carrying the optional segment start and the emitted segments. -/
def segStep (k minq : Nat) (seq : List Char) (qual : List Nat)
    (st : Option Nat × List (List Char)) (i : Nat) :
    Option Nat × List (List Char) :=
  if i = seq.length ∨ ¬ is_usable minq (seq.getD i ' ') (qual.getD i 0) then
    match st.1 with
    | some start =>
      if k ≤ i - start then (none, st.2 ++ [(seq.drop start).take (i - start)])
      else (none, st.2)
    | none => (none, st.2)
  else
    match st.1 with
    | none => (some i, st.2)
    | some _ => st

/-- Model of GraphWrapper::set_read: scan positions 0 through |seq|
inclusive, emitting maximal usable runs of length at least the kmer size. -/
def read_segments (k minq : Nat) (seq : List Char) (qual : List Nat) :
    List (List Char) :=
  ((List.range (seq.length + 1)).foldl (segStep k minq seq qual) (none, [])).2

theorem segStep_fold_length (k minq : Nat) (seq : List Char) (qual : List Nat) :
    ∀ (idxs : List Nat) (st : Option Nat × List (List Char)),
    (∀ seg ∈ st.2, k ≤ seg.length) → (∀ i ∈ idxs, i ≤ seq.length) →
    ∀ seg ∈ (idxs.foldl (segStep k minq seq qual) st).2, k ≤ seg.length := by
  intro idxs
  induction idxs with
  | nil => intro st hst _ seg hseg; exact hst seg hseg
  | cons i rest ih =>
    intro st hst hidx
    rw [List.foldl_cons]
    apply ih
    · intro seg hseg
      unfold segStep at hseg
      split at hseg
      · split at hseg
        · rename_i start hstart
          split at hseg
          · rename_i hlen
            simp only [List.mem_append, List.mem_singleton] at hseg
            rcases hseg with hseg | hseg
            · exact hst seg hseg
            · subst hseg
              have hi : i ≤ seq.length := hidx i (List.mem_cons_self _ _)
              simp only [List.length_take, List.length_drop]
              omega
          · exact hst seg hseg
        · exact hst seg hseg
      · split at hseg
        · exact hst seg hseg
        · exact hst seg hseg
    · intro j hj
      exact hidx j (List.mem_cons_of_mem _ hj)

/-- C10: (a) for every sequence s and window size k with k ≤ |s|,
get_dup_kmers(s, k) is exactly the set of length-k windows of s occurring at
more than one starting position in 0..|s|-k; (b) every segment emitted by the
set_read segmentation has length at least the kmer size; (c) the assembler
rejects any kmer size larger than the reference length, so every caller
establishes the precondition k ≤ |s|. -/
theorem get_dup_kmers_spec (s : List Char) (k : Nat) (hk : k ≤ s.length) :
    (∀ w, w ∈ get_dup_kmers s k ↔
      2 ≤ (List.range (s.length - k + 1)).countP (fun i => kmerAt s k i == w)) ∧
    (∀ (minq : Nat) (seq : List Char) (qual : List Nat),
      ∀ seg ∈ read_segments k minq seq qual, k ≤ seg.length) ∧
    (∀ (refLen : Nat) (uniq : Nat → Nat) (cyc : Nat → Bool)
      (paths : Nat → List (List Char)), refLen < k →
      subAssemble refLen uniq cyc paths k = []) := by
  refine ⟨?_, ?_, ?_⟩
  · intro w
    unfold get_dup_kmers
    rw [dupStep_fold_mem]
    simp
  · intro minq seq qual seg hseg
    apply segStep_fold_length k minq seq qual _ (none, []) (by simp) _ seg hseg
    intro i hi
    simp only [List.mem_range] at hi
    omega
  · intro refLen uniq cyc paths hlt
    unfold subAssemble
    rw [if_pos hlt]

theorem get_dup_kmers_spec_witness :
    ((3 : Nat) ≤ (['A', 'C', 'G', 'A', 'C', 'G'] : List Char).length) ∧
    (['A', 'C', 'G'] ∈ get_dup_kmers ['A', 'C', 'G', 'A', 'C', 'G'] 3 ↔
      2 ≤ (List.range ((['A', 'C', 'G', 'A', 'C', 'G'] : List Char).length - 3 + 1)).countP
        (fun i => kmerAt ['A', 'C', 'G', 'A', 'C', 'G'] 3 i == ['A', 'C', 'G'])) ∧
    ['A', 'C', 'G'] ∈ get_dup_kmers ['A', 'C', 'G', 'A', 'C', 'G'] 3 :=
  ⟨by decide,
    (get_dup_kmers_spec ['A', 'C', 'G', 'A', 'C', 'G'] 3 (by decide)).1 ['A', 'C', 'G'],
    ((get_dup_kmers_spec ['A', 'C', 'G', 'A', 'C', 'G'] 3 (by decide)).1
      ['A', 'C', 'G']).mpr (by decide)⟩

/-! ## Pair-HMM likelihood normalization and poor-read filter (pairhmm.hpp)

Doubles are modelled as exact rationals. -/

/-- Aligned read record, reduced to the fields the pair-HMM uses. -/
structure SAMRecord where
  SEQ : List Char
  QUAL : List Nat
  MAPQ : Nat
deriving DecidableEq, Repr

instance : Inhabited SAMRecord := ⟨⟨[], [], 0⟩⟩

/-- SAMRecord::size, the read length. -/
def SAMRecord.size (r : SAMRecord) : Nat := r.SEQ.length

/-- MAXIMUM_BEST_ALT_LIKELIHOOD_DIFFERENCE = -4.5. -/
def MAXIMUM_BEST_ALT_LIKELIHOOD_DIFFERENCE : ℚ := -9/2

/-- EXPECTED_ERROR_RATE_PER_BASE = 0.02. -/
def EXPECTED_ERROR_RATE_PER_BASE : ℚ := 2/100

/-- LOG10_QUALITY_PER_BASE = -4.0. -/
def LOG10_QUALITY_PER_BASE : ℚ := -4

/-- MAXIMUM_EXPECTED_ERROR_PER_READ = 2.0. -/
def MAXIMUM_EXPECTED_ERROR_PER_READ : ℚ := 2

/-- Value of the first maximum element of a row, as std::max_element
dereferences it; defined for non-empty rows. -/
def listMax : List ℚ → ℚ
  | [] => 0
  | x :: xs => xs.foldl max x

/-- Per-row clamping pass: entries below best - 4.5 are raised to
best - 4.5. -/
def rowClamp (row : List ℚ) : List ℚ :=
  let cap := listMax row + MAXIMUM_BEST_ALT_LIKELIHOOD_DIFFERENCE
  row.map (fun x => if x < cap then cap else x)

/-- The poor-read threshold min(2.0, ceil(size * 0.02)) * (-4.0). -/
def likelihoodThreshold (readSize : Nat) : ℚ :=
  min MAXIMUM_EXPECTED_ERROR_PER_READ
    ((⌈(readSize : ℚ) * EXPECTED_ERROR_RATE_PER_BASE⌉ : ℤ) : ℚ) * LOG10_QUALITY_PER_BASE

/-- Left fold erasing indices one by one. -/
def foldErase {α : Type} (v : List α) (indices : List Nat) : List α :=
  indices.foldl (fun l i => l.eraseIdx i) v

/-- The remove_by_sorted_indices helper: erase the collected indices from
highest to lowest (reverse iteration over the ascending index list). -/
def removeBySortedIndices {α : Type} (v : List α) (indices : List Nat) : List α :=
  foldErase v indices.reverse

/-- Model of PairHMM::normalize_likelihoods_and_filter_poorly_modeled_reads:
clamp every row at its best minus 4.5, collect the indices of reads whose
best likelihood is below the threshold, and erase them from both lists in
reverse index order. -/
def normalize_likelihoods_and_filter (reads : List SAMRecord)
    (log_likelihoods : List (List ℚ)) : List SAMRecord × List (List ℚ) :=
  let remove_indices := (List.range log_likelihoods.length).filter
    (fun i => decide (listMax (log_likelihoods.getD i []) <
      likelihoodThreshold (reads.getD i default).size))
  let clamped := log_likelihoods.map rowClamp
  (removeBySortedIndices reads remove_indices,
    removeBySortedIndices clamped remove_indices)

/-- Order-preserving selection of the elements whose index satisfies keep. -/
def keepIdxs {α : Type} (keep : Nat → Bool) : List α → Nat → List α
  | [], _ => []
  | x :: xs, start =>
    if keep start then x :: keepIdxs keep xs (start + 1)
    else keepIdxs keep xs (start + 1)

theorem keepIdxs_append {α : Type} (keep : Nat → Bool) (a : α) :
    ∀ (l : List α) (s : Nat), keepIdxs keep (l ++ [a]) s =
      keepIdxs keep l s ++ (if keep (s + l.length) then [a] else []) := by
  intro l
  induction l with
  | nil =>
    intro s
    simp [keepIdxs]
  | cons x xs ih =>
    intro s
    rw [List.cons_append]
    rw [show keepIdxs keep (x :: (xs ++ [a])) s =
      if keep s then x :: keepIdxs keep (xs ++ [a]) (s + 1)
      else keepIdxs keep (xs ++ [a]) (s + 1) from rfl]
    rw [show keepIdxs keep (x :: xs) s =
      if keep s then x :: keepIdxs keep xs (s + 1)
      else keepIdxs keep xs (s + 1) from rfl]
    rw [ih (s + 1), show s + 1 + xs.length = s + (xs.length + 1) by omega]
    rw [List.length_cons]
    split <;> simp

theorem foldErase_concat {α : Type} (a : α) :
    ∀ (indices : List Nat) (l : List α), indices.Pairwise (· > ·) →
    (∀ i ∈ indices, i < l.length) →
    foldErase (l ++ [a]) indices = foldErase l indices ++ [a] := by
  intro indices
  induction indices with
  | nil => intro l _ _; rfl
  | cons i rest ih =>
    intro l hpw hbound
    have hi : i < l.length := hbound i (List.mem_cons_self _ _)
    unfold foldErase
    rw [List.foldl_cons, List.foldl_cons]
    rw [List.eraseIdx_append_of_lt_length hi]
    apply ih
    · exact hpw.of_cons
    · intro j hj
      have hji : j < i := (List.pairwise_cons.mp hpw).1 j hj
      rw [List.length_eraseIdx_of_lt hi]
      omega

theorem eraseIdx_concat_self {α : Type} (a : α) (l : List α) :
    (l ++ [a]).eraseIdx l.length = l := by
  induction l with
  | nil => rfl
  | cons x xs ih => simp [List.eraseIdx_cons_succ, ih]

theorem foldErase_append_idx {α : Type} (l : List α) (i₁ i₂ : List Nat) :
    foldErase l (i₁ ++ i₂) = foldErase (foldErase l i₁) i₂ := by
  simp [foldErase, List.foldl_append]

theorem foldErase_filter_range {α : Type} (p : Nat → Bool) :
    ∀ (n : Nat) (l : List α), l.length = n →
    foldErase l (((List.range n).filter p).reverse) =
      keepIdxs (fun i => !(p i)) l 0 := by
  intro n
  induction n with
  | zero =>
    intro l hl
    rw [List.length_eq_zero.mp hl]
    rfl
  | succ n ih =>
    intro l hl
    rcases l.eq_nil_or_concat with rfl | ⟨l₂, a, rfl⟩
    · exact absurd hl (by simp)
    · rw [List.concat_eq_append] at hl ⊢
      have hl₂ : l₂.length = n := by
        simp only [List.length_append, List.length_singleton] at hl
        omega
      rw [List.range_succ, List.filter_append, List.reverse_append,
        foldErase_append_idx, keepIdxs_append]
      by_cases hp : p n
      · have h1 : (List.filter p [n]).reverse = [n] := by simp [hp]
        rw [h1]
        have h2 : foldErase (l₂ ++ [a]) [n] = l₂ := by
          simp only [foldErase, List.foldl_cons, List.foldl_nil]
          rw [← hl₂]
          exact eraseIdx_concat_self a l₂
        rw [h2, ih l₂ hl₂]
        rw [if_neg (by simp [hl₂, hp])]
        simp
      · have h1 : (List.filter p [n]).reverse = [] := by simp [hp]
        rw [h1]
        rw [show foldErase (l₂ ++ [a]) [] = l₂ ++ [a] from rfl]
        have hcomm := foldErase_concat a ((List.range n).filter p).reverse l₂
          (by
            rw [List.pairwise_reverse]
            apply List.Pairwise.filter
            exact List.pairwise_lt_range n)
          (by
            intro i hi
            simp only [List.mem_reverse, List.mem_filter, List.mem_range] at hi
            omega)
        rw [hcomm, ih l₂ hl₂]
        rw [if_pos (by simp [hl₂, hp])]

/-- C5: normalization clamps every entry of row i to max(entry, best - 4.5),
and the filter removes, from the reads list and the matrix simultaneously,
exactly the rows whose best likelihood is below
min(2.0, ceil(size * 0.02)) * (-4.0); the reverse-order erasure keeps
surviving reads in their original relative order and aligned with their
rows. -/
theorem normalize_and_filter_spec (reads : List SAMRecord)
    (log_likelihoods : List (List ℚ))
    (hlen : reads.length = log_likelihoods.length)
    (hrows : ∀ row ∈ log_likelihoods, row ≠ []) :
    (normalize_likelihoods_and_filter reads log_likelihoods =
      (keepIdxs (fun i => !(decide (listMax (log_likelihoods.getD i []) <
          likelihoodThreshold (reads.getD i default).size))) reads 0,
        keepIdxs (fun i => !(decide (listMax (log_likelihoods.getD i []) <
          likelihoodThreshold (reads.getD i default).size)))
          (log_likelihoods.map rowClamp) 0)) ∧
    ∀ row ∈ log_likelihoods, rowClamp row =
      row.map (fun x => max x (listMax row + MAXIMUM_BEST_ALT_LIKELIHOOD_DIFFERENCE)) := by
  constructor
  · unfold normalize_likelihoods_and_filter removeBySortedIndices
    refine Prod.ext ?_ ?_
    · simp only
      rw [foldErase_filter_range _ log_likelihoods.length reads hlen]
    · simp only
      rw [foldErase_filter_range _ log_likelihoods.length
        (log_likelihoods.map rowClamp) (by simp)]
  · intro row hrow
    unfold rowClamp
    apply List.map_congr_left
    intro x hx
    rcases lt_trichotomy x (listMax row + MAXIMUM_BEST_ALT_LIKELIHOOD_DIFFERENCE) with h | h | h
    · rw [if_pos h, max_eq_right h.le]
    · rw [if_neg (by rw [h]; exact lt_irrefl _), max_eq_left h.symm.le]
    · rw [if_neg (not_lt.mpr h.le), max_eq_left h.le]

theorem normalize_and_filter_spec_witness :
    ((([⟨['A'], [30], 60⟩] : List SAMRecord).length =
        ([[(0 : ℚ), -10]] : List (List ℚ)).length) ∧
      (∀ row ∈ ([[(0 : ℚ), -10]] : List (List ℚ)), row ≠ [])) ∧
    (normalize_likelihoods_and_filter [⟨['A'], [30], 60⟩] [[(0 : ℚ), -10]] =
      (keepIdxs (fun i => !(decide (listMax (([[(0 : ℚ), -10]] :
          List (List ℚ)).getD i []) < likelihoodThreshold
          (([⟨['A'], [30], 60⟩] : List SAMRecord).getD i default).size)))
        [⟨['A'], [30], 60⟩] 0,
      keepIdxs (fun i => !(decide (listMax (([[(0 : ℚ), -10]] :
          List (List ℚ)).getD i []) < likelihoodThreshold
          (([⟨['A'], [30], 60⟩] : List SAMRecord).getD i default).size)))
        (([[(0 : ℚ), -10]] : List (List ℚ)).map rowClamp) 0)) :=
  ⟨⟨rfl, by decide⟩,
    (normalize_and_filter_spec [⟨['A'], [30], 60⟩] [[(0 : ℚ), -10]] rfl (by decide)).1⟩

/-! ## Genotyper emission gates (genetyper.hpp)

The upstream computation of per-locus allele lists and genotype
log-likelihoods is abstracted: each locus contributes its allele list, its
location and its genotype likelihood vector, and the emission path from
genetyper.hpp is embedded exactly. -/

/-- Variant record, reduced to the fields the emission path fills. -/
structure Variant where
  location : Interval
  alleles : List String
  GT : Nat × Nat
  GQ : Nat
deriving DecidableEq, Repr

/-- MAX_GENOTYPE_QUALITY. -/
def MAX_GENOTYPE_QUALITY : Nat := 99

/-- MIN_GENOTYPE_QUALITY. -/
def MIN_GENOTYPE_QUALITY : Nat := 10

/-- MAX_ALLELE_COUNT. -/
def MAX_ALLELE_COUNT : Nat := 10

/-- The allele_index_cache row for one allele count: all unordered pairs
(a1, a2) with a1 from 0 and a2 from a1, in genotype-index order. -/
def allele_index_cache (allele_count : Nat) : List (Nat × Nat) :=
  (List.range allele_count).flatMap
    (fun a1 => (List.range' a1 (allele_count - a1)).map (fun a2 => (a1, a2)))

/-- The scan loop of get_genotype_quality_and_max_genotype_index from index
2 on: a new maximum (ties included) displaces the old maximum into second
place and records its index; otherwise a value above the second maximum
replaces it. -/
def gqScan : List ℚ → Nat → ℚ → ℚ → Nat → ℚ × ℚ × Nat
  | [], _, mx, sm, idx => (mx, sm, idx)
  | g :: rest, i, mx, sm, idx =>
    if g ≥ mx then gqScan rest (i + 1) g mx i
    else if g > sm then gqScan rest (i + 1) mx g idx
    else gqScan rest (i + 1) mx sm idx

/-- Final step of get_genotype_quality_and_max_genotype_index: from the
scanned (max, second, argmax) triple, the genotype quality is
round(-10 * (second - max)) cast to size_t and clamped at
MAX_GENOTYPE_QUALITY. -/
def gqFrom (fin : ℚ × ℚ × Nat) : Nat × Nat :=
  let gq := (round (-10 * (fin.2.1 - fin.1))).toNat
  (fin.2.2, if gq > MAX_GENOTYPE_QUALITY then MAX_GENOTYPE_QUALITY else gq)

/-- Model of Genetyper::get_genotype_quality_and_max_genotype_index: seed
maximum and second maximum from the first two entries, scan the rest, and
return the argmax index together with the clamped quality.  The C++ code
reads entries 0 and 1 unconditionally, so the model is defined only for two
or more entries. -/
def get_genotype_quality_and_max_genotype_index (genotypes : List ℚ) :
    Option (Nat × Nat) :=
  match genotypes with
  | g0 :: g1 :: rest =>
    some (gqFrom (if g0 > g1 then gqScan rest 2 g0 g1 0 else gqScan rest 2 g1 g0 1))
  | _ => none

/-- Genetyper::get_genotype: look up the genotype pair in the
allele_index_cache row. -/
def get_genotype (allele_count genotype_index : Nat) : Nat × Nat :=
  (allele_index_cache allele_count).getD genotype_index (0, 0)

/-- The emission decision of Genetyper::assign_genotype_likelihoods for one
locus: skip when there are more than MAX_ALLELE_COUNT alleles, skip the
homozygous-reference argmax and genotype qualities below
MIN_GENOTYPE_QUALITY, otherwise emit the Variant. -/
def genotype_locus (alleles : List String) (alleles_loc : Interval)
    (genotype_likelihoods : List ℚ) : Option Variant :=
  if alleles.length > MAX_ALLELE_COUNT then none
  else
    match get_genotype_quality_and_max_genotype_index genotype_likelihoods with
    | none => none
    | some (genotype_index, genotype_quality) =>
      if genotype_index = 0 ∨ genotype_quality < MIN_GENOTYPE_QUALITY then none
      else some ⟨alleles_loc, alleles, get_genotype alleles.length genotype_index,
        genotype_quality⟩

/-- The per-window loop of Genetyper::assign_genotype_likelihoods over the
event loci, with the upstream per-locus data (alleles, location, genotype
likelihood vector) supplied as input. -/
def assign_genotype_likelihoods
    (loci : List (List String × Interval × List ℚ)) : List Variant :=
  loci.filterMap (fun x => genotype_locus x.1 x.2.1 x.2.2)

theorem gqScan_idx_lt (bound : Nat) :
    ∀ (rest : List ℚ) (i : Nat) (mx sm : ℚ) (idx : Nat), idx < bound →
    i + rest.length ≤ bound → (gqScan rest i mx sm idx).2.2 < bound := by
  intro rest
  induction rest with
  | nil => intro i mx sm idx hidx _; exact hidx
  | cons g rs ih =>
    intro i mx sm idx hidx hlen
    simp only [List.length_cons] at hlen
    unfold gqScan
    split
    · exact ih (i + 1) g mx i (by omega) (by omega)
    · split
      · exact ih (i + 1) mx g idx hidx (by omega)
      · exact ih (i + 1) mx sm idx hidx (by omega)

theorem allele_index_cache_ne_zero (n : Nat) (hn : n ≤ 10) :
    ∀ i, 1 ≤ i → i < n * (n + 1) / 2 →
    (allele_index_cache n).getD i (0, 0) ≠ (0, 0) := by
  interval_cases n <;> decide

theorem gqFrom_snd_le (fin : ℚ × ℚ × Nat) : (gqFrom fin).2 ≤ 99 := by
  unfold gqFrom MAX_GENOTYPE_QUALITY
  simp only
  split
  · exact le_refl _
  · omega

theorem gq_result_spec (genotypes : List ℚ) (genotype_index genotype_quality : Nat)
    (heq : get_genotype_quality_and_max_genotype_index genotypes =
      some (genotype_index, genotype_quality)) :
    genotype_quality ≤ 99 ∧ genotype_index < genotypes.length := by
  unfold get_genotype_quality_and_max_genotype_index at heq
  cases genotypes with
  | nil => exact absurd heq (by simp)
  | cons g0 tail =>
    cases tail with
    | nil => exact absurd heq (by simp)
    | cons g1 rest =>
      simp only [Option.some_inj] at heq
      constructor
      · have hsnd := congrArg Prod.snd heq
        simp only at hsnd
        rw [← hsnd]
        exact gqFrom_snd_le _
      · have hfst := congrArg Prod.fst heq
        rw [show (gqFrom (if g0 > g1 then gqScan rest 2 g0 g1 0
          else gqScan rest 2 g1 g0 1)).1 =
          (if g0 > g1 then gqScan rest 2 g0 g1 0 else gqScan rest 2 g1 g0 1).2.2
          from rfl] at hfst
        simp only at hfst
        rw [← hfst, List.length_cons, List.length_cons]
        split
        · exact gqScan_idx_lt (rest.length + 1 + 1) rest 2 g0 g1 0 (by omega) (by omega)
        · exact gqScan_idx_lt (rest.length + 1 + 1) rest 2 g1 g0 1 (by omega) (by omega)

/-- C6: every Variant emitted by the genotyper has genotype quality between
MIN_GENOTYPE_QUALITY = 10 and MAX_GENOTYPE_QUALITY = 99 and a genotype pair
different from (0, 0), provided each locus carries one genotype likelihood
per unordered diploid genotype (allele_count * (allele_count + 1) / 2, as
calculate_genotype_likelihoods produces). -/
theorem genotyper_emission_gates
    (loci : List (List String × Interval × List ℚ))
    (hlen : ∀ x ∈ loci, x.2.2.length = x.1.length * (x.1.length + 1) / 2) :
    ∀ v ∈ assign_genotype_likelihoods loci,
      (10 ≤ v.GQ ∧ v.GQ ≤ 99) ∧ v.GT ≠ (0, 0) := by
  intro v hv
  unfold assign_genotype_likelihoods at hv
  rw [List.mem_filterMap] at hv
  obtain ⟨x, hx, hemit⟩ := hv
  unfold genotype_locus at hemit
  split at hemit
  · exact absurd hemit (by simp)
  · rename_i hcount
    split at hemit
    · exact absurd hemit (by simp)
    · rename_i genotype_index genotype_quality heq
      split at hemit
      · exact absurd hemit (by simp)
      · rename_i hgate
        rw [Option.some_inj] at hemit
        push_neg at hgate
        obtain ⟨hidx0, hq10⟩ := hgate
        obtain ⟨hgle, hglt⟩ := gq_result_spec x.2.2 genotype_index genotype_quality heq
        subst hemit
        refine ⟨⟨by simpa [MIN_GENOTYPE_QUALITY] using hq10, hgle⟩, ?_⟩
        simp only
        apply allele_index_cache_ne_zero x.1.length (by
          simpa [MAX_ALLELE_COUNT] using hcount)
        · omega
        · rw [hlen x hx] at hglt
          exact hglt

theorem genotyper_emission_gates_witness :
    (∀ x ∈ [((["A", "C"] : List String), (Interval.mk "chr1" 5 6),
        ([(-5 : ℚ), 0, -3] : List ℚ))],
      x.2.2.length = x.1.length * (x.1.length + 1) / 2) ∧
    ∀ v ∈ assign_genotype_likelihoods
        [((["A", "C"] : List String), (Interval.mk "chr1" 5 6),
          ([(-5 : ℚ), 0, -3] : List ℚ))],
      (10 ≤ v.GQ ∧ v.GQ ≤ 99) ∧ v.GT ≠ (0, 0) :=
  ⟨by decide, genotyper_emission_gates _ (by decide)⟩

/-! ## Pair-HMM likelihood engine (pairhmm.hpp)

The recurrence is embedded over exact rationals; the returned value for each
(read, haplotype) pair is the final sum over j of M[m,j] + D[m,j], i.e. the
argument of the final log10 (log10 is strictly monotone on positives and
undefined at 0, so matrices of final sums are equal iff the log-likelihood
matrices are).  The base-quality-to-error-probability table is a parameter
(its entries are the irrational powers 10^(-(q-33)/10)). -/

/-- The seven-entry transition probability vector. -/
structure TransMatrix where
  tMM : ℚ
  tMI : ℚ
  tMD : ℚ
  tIM : ℚ
  tII : ℚ
  tDM : ℚ
  tDD : ℚ

/-- PairHMM::ORIGINAL_DEFAULT = {0.9998, 0.0001, 0.0001, 0.9, 0.1, 0.9,
0.1}. -/
def PairHMM_ORIGINAL_DEFAULT : TransMatrix :=
  ⟨9998/10000, 1/10000, 1/10000, 9/10, 1/10, 9/10, 1/10⟩

/-- INITIAL_CONDITION = 2^1020. -/
def INITIAL_CONDITION : ℚ := 2 ^ 1020

/-- The mutable state of a PairHMM object: the four matrices and the
previous haplotype length remembered across sub_compute_likelihood calls. -/
structure PairHMMState where
  M : Nat → Nat → ℚ
  I : Nat → Nat → ℚ
  D : Nat → Nat → ℚ
  p : Nat → Nat → ℚ
  previous_haplotype_length : Nat

/-- Pointwise matrix update. -/
def upd2 (f : Nat → Nat → ℚ) (i j : Nat) (v : ℚ) : Nat → Nat → ℚ :=
  fun a b => if a = i ∧ b = j then v else f a b

/-- The conditional reinitialization of the D[0,.] row at the top of
sub_compute_likelihood: performed only when the previous haplotype length is
0 or differs from the current one. -/
def subComputeD0 (st : PairHMMState) (hapLen : Nat) : PairHMMState :=
  if st.previous_haplotype_length = 0 ∨ st.previous_haplotype_length ≠ hapLen then
    { st with
      D := fun a b =>
        if a = 0 ∧ b ≤ hapLen then INITIAL_CONDITION / (hapLen : ℚ) else st.D a b,
      previous_haplotype_length := hapLen }
  else st

/-- The unconditional reinitialization used by the reference computation
(modelled from the spec sentence: initialize D[0,j] = INITIAL / n for
j = 0..n for every pair). -/
def subComputeD0Ref (st : PairHMMState) (hapLen : Nat) : PairHMMState :=
  { st with
    D := fun a b =>
      if a = 0 ∧ b ≤ hapLen then INITIAL_CONDITION / (hapLen : ℚ) else st.D a b,
    previous_haplotype_length := hapLen }

/-- PairHMM::initialize_priors: the emission prior at (i+1, j+1) is
1 - errProb(q) on a base match or an N, and errProb(q)/3 otherwise. -/
def initPriors (errProb : Nat → ℚ) (read : SAMRecord) (hap : List Char)
    (st : PairHMMState) : PairHMMState :=
  { st with
    p := fun a b =>
      if 1 ≤ a ∧ a ≤ read.size ∧ 1 ≤ b ∧ b ≤ hap.length then
        (if read.SEQ.getD (a - 1) ' ' = hap.getD (b - 1) ' ' ∨
            read.SEQ.getD (a - 1) ' ' = 'N' ∨ hap.getD (b - 1) ' ' = 'N' then
          1 - errProb (read.QUAL.getD (a - 1) 0)
        else errProb (read.QUAL.getD (a - 1) 0) / 3)
      else st.p a b }

/-- One cell update of the M/I/D recurrence. -/
def hmmCell (t : TransMatrix) (st : PairHMMState) (i j : Nat) : PairHMMState :=
  let Mv := st.p i j * (st.M (i - 1) (j - 1) * t.tMM + st.I (i - 1) (j - 1) * t.tIM +
    st.D (i - 1) (j - 1) * t.tDM)
  let Iv := st.M (i - 1) j * t.tMI + st.I (i - 1) j * t.tII
  let Dv := st.M i (j - 1) * t.tMD + st.D i (j - 1) * t.tDD
  { st with M := upd2 st.M i j Mv, I := upd2 st.I i j Iv, D := upd2 st.D i j Dv }

/-- Inner loop over columns j, j+1, ... (fuel many). -/
def hmmRow (t : TransMatrix) (st : PairHMMState) (i : Nat) : Nat → Nat → PairHMMState
  | _, 0 => st
  | j, fuel + 1 => hmmRow t (hmmCell t st i j) i (j + 1) fuel

/-- Outer loop over rows i, i+1, ... (fuel many), each sweeping columns
1..n. -/
def hmmSweep (t : TransMatrix) (n : Nat) : PairHMMState → Nat → Nat → PairHMMState
  | st, _, 0 => st
  | st, i, fuel + 1 => hmmSweep t n (hmmRow t st i 1 n) (i + 1) fuel

/-- The final sum over j = 1..n of M[m,j] + D[m,j]. -/
def finalSum (st : PairHMMState) (m n : Nat) : ℚ :=
  ((List.range n).map (fun k => st.M m (k + 1) + st.D m (k + 1))).sum

/-- Model of PairHMM::sub_compute_likelihood (conditional D-row
reinitialization, priors, recurrence, final sum). -/
def sub_compute_likelihood (errProb : Nat → ℚ) (t : TransMatrix)
    (read : SAMRecord) (hap : List Char) (st : PairHMMState) : ℚ × PairHMMState :=
  let st1 := subComputeD0 st hap.length
  let st2 := initPriors errProb read hap st1
  let st3 := hmmSweep t hap.length st2 1 read.size
  (finalSum st3 read.size hap.length, st3)

/-- The reference per-pair computation that always reinitializes the D row. -/
def sub_compute_likelihood_ref (errProb : Nat → ℚ) (t : TransMatrix)
    (read : SAMRecord) (hap : List Char) (st : PairHMMState) : ℚ × PairHMMState :=
  let st1 := subComputeD0Ref st hap.length
  let st2 := initPriors errProb read hap st1
  let st3 := hmmSweep t hap.length st2 1 read.size
  (finalSum st3 read.size hap.length, st3)

/-- PairHMM::modify_read_qualities: cap each base quality at MAPQ + 33. -/
def modifyRead (read : SAMRecord) : SAMRecord :=
  { read with QUAL := read.QUAL.map (fun q => min q (read.MAPQ + 33)) }

/-- The zeroed matrices produced by the matrix reallocation at the top of
PairHMM::compute_likelihoods; previous_haplotype_length is a separate member
and is retained. -/
def reallocState (st0 : PairHMMState) : PairHMMState :=
  ⟨fun _ _ => 0, fun _ _ => 0, fun _ _ => 0, fun _ _ => 0,
    st0.previous_haplotype_length⟩

/-- Model of one PairHMM::compute_likelihoods call up to (excluding) the
normalization pass: reallocate the matrices, cap the read qualities, then
fill the reads-by-haplotypes matrix of final sums in row-major order,
threading the mutable state through the pairs. -/
def compute_likelihoods_sums (errProb : Nat → ℚ) (t : TransMatrix)
    (haplotypes : List (List Char)) (reads : List SAMRecord)
    (st0 : PairHMMState) : List (List ℚ) × PairHMMState :=
  let reads2 := reads.map modifyRead
  reads2.foldl
    (fun acc read =>
      let rowres := haplotypes.foldl
        (fun a hap =>
          let r := sub_compute_likelihood errProb t read hap a.2
          (a.1 ++ [r.1], r.2))
        ([], acc.2)
      (acc.1 ++ [rowres.1], rowres.2))
    ([], reallocState st0)

/-- The reference computation: identical, but every pair reinitializes the
D row. -/
def compute_likelihoods_sums_ref (errProb : Nat → ℚ) (t : TransMatrix)
    (haplotypes : List (List Char)) (reads : List SAMRecord)
    (st0 : PairHMMState) : List (List ℚ) × PairHMMState :=
  let reads2 := reads.map modifyRead
  reads2.foldl
    (fun acc read =>
      let rowres := haplotypes.foldl
        (fun a hap =>
          let r := sub_compute_likelihood_ref errProb t read hap a.2
          (a.1 ++ [r.1], r.2))
        ([], acc.2)
      (acc.1 ++ [rowres.1], rowres.2))
    ([], reallocState st0)

/-- A fresh PairHMM object: previous_haplotype_length starts at 0 (the
matrices are empty; any fixed content works since compute_likelihoods
reallocates them). -/
def freshPairHMM : PairHMMState := ⟨fun _ _ => 0, fun _ _ => 0, fun _ _ => 0, fun _ _ => 0, 0⟩

/-- C7 (failing input): calling compute_likelihoods twice on the same
object with the single read A (quality 40, MAPQ 60) against the single
haplotype A, the first call returns the correct final sum
0.81 * 2^1020, but the second call returns 0 (log-likelihood -infinity):
the matrices were reallocated to zero while previous_haplotype_length = 1
was retained, so the D[0,.] row reinitialization is skipped even though the
D row no longer holds INITIAL/n.  The reference computation that
reinitializes for every pair returns the correct value on the second call,
so the cross-call equivalence claimed by the spec fails on the code. -/
theorem pairhmm_cross_call_divergence :
    ((compute_likelihoods_sums (fun _ => 1/10) PairHMM_ORIGINAL_DEFAULT
        [['A']] [⟨['A'], [40], 60⟩] freshPairHMM).1 =
      [[81/100 * INITIAL_CONDITION]]) ∧
    ((compute_likelihoods_sums (fun _ => 1/10) PairHMM_ORIGINAL_DEFAULT
        [['A']] [⟨['A'], [40], 60⟩]
        (compute_likelihoods_sums (fun _ => 1/10) PairHMM_ORIGINAL_DEFAULT
          [['A']] [⟨['A'], [40], 60⟩] freshPairHMM).2).1 =
      [[0]]) ∧
    ((compute_likelihoods_sums_ref (fun _ => 1/10) PairHMM_ORIGINAL_DEFAULT
        [['A']] [⟨['A'], [40], 60⟩]
        (compute_likelihoods_sums (fun _ => 1/10) PairHMM_ORIGINAL_DEFAULT
          [['A']] [⟨['A'], [40], 60⟩] freshPairHMM).2).1 =
      [[81/100 * INITIAL_CONDITION]]) := by
  refine ⟨?_, ?_, ?_⟩ <;>
    norm_num [compute_likelihoods_sums, compute_likelihoods_sums_ref,
      sub_compute_likelihood, sub_compute_likelihood_ref, subComputeD0,
      subComputeD0Ref, initPriors, hmmSweep, hmmRow, hmmCell, finalSum, upd2,
      modifyRead, reallocState, freshPairHMM, SAMRecord.size,
      PairHMM_ORIGINAL_DEFAULT, INITIAL_CONDITION, List.range_succ]

/-! ## Smith-Waterman aligner (smithwaterman part, scalar implementation)

C++ int is modelled as unbounded Int; the two magic initialization constants
INT_MIN and INT_MIN/2 are kept literally. -/

/-- The SW scoring parameter pack. -/
structure SWParameters where
  w_match : Int
  w_mismatch : Int
  w_open : Int
  w_extend : Int

/-- ORIGINAL_DEFAULT. -/
def SW_ORIGINAL_DEFAULT : SWParameters := ⟨3, -1, -4, -3⟩

/-- STANDARD_NGS. -/
def SW_STANDARD_NGS : SWParameters := ⟨25, -50, -110, -6⟩

/-- NEW_SW_PARAMETERS. -/
def SW_NEW_SW_PARAMETERS : SWParameters := ⟨200, -150, -260, -11⟩

/-- ALIGNMENT_TO_BEST_HAPLOTYPE_SW_PARAMETERS. -/
def SW_ALIGNMENT_TO_BEST_HAPLOTYPE : SWParameters := ⟨10, -15, -30, -5⟩

/-- std::numeric_limits of int: minimum. -/
def INT_MIN : Int := -2147483648

/-- INT_MIN / 2 with C++ truncating division. -/
def INT_MIN_HALF : Int := -1073741824

/-- Pointwise update of an int array. -/
def updI1 (f : Nat → Int) (i : Nat) (v : Int) : Nat → Int :=
  fun a => if a = i then v else f a

/-- Pointwise update of an int matrix. -/
def updI2 (f : Nat → Nat → Int) (i j : Nat) (v : Int) : Nat → Nat → Int :=
  fun a b => if a = i ∧ b = j then v else f a b

/-- The mutable state of SWAligner::calculate_matrix: score and traceback
matrices (allocated zero-filled) and the four gap bookkeeping arrays. -/
structure SWState where
  score : Nat → Nat → Int
  trace : Nat → Nat → Int
  gapSizeDown : Nat → Int
  bestGapDown : Nat → Int
  gapSizeRight : Nat → Int
  bestGapRight : Nat → Int

/-- Initial state: zeroed matrices and gap sizes, best-gap arrays at
INT_MIN/2. -/
def swInit : SWState :=
  ⟨fun _ _ => 0, fun _ _ => 0, fun _ => 0, fun _ => INT_MIN_HALF,
    fun _ => 0, fun _ => INT_MIN_HALF⟩

/-- One cell of the SW recurrence at (i, j), 1-based: diagonal step, gap
continuation bookkeeping in both directions, and the
diagonal-before-down-before-right choice writing score and trace. -/
def fillCell (params : SWParameters) (ref alt : List Char) (st : SWState)
    (i j : Nat) : SWState :=
  let stepDiag := st.score (i - 1) (j - 1) +
    (if ref.getD (i - 1) ' ' = alt.getD (j - 1) ' ' then params.w_match
     else params.w_mismatch)
  let gapOpenDown := st.score (i - 1) j + params.w_open
  let bgd := st.bestGapDown j + params.w_extend
  let downPair : Int × Int :=
    if gapOpenDown > bgd then (gapOpenDown, 1) else (bgd, st.gapSizeDown j + 1)
  let gapOpenRight := st.score i (j - 1) + params.w_open
  let bgr := st.bestGapRight i + params.w_extend
  let rightPair : Int × Int :=
    if gapOpenRight > bgr then (gapOpenRight, 1) else (bgr, st.gapSizeRight i + 1)
  let chosen : Int × Int :=
    if stepDiag ≥ downPair.1 ∧ stepDiag ≥ rightPair.1 then (stepDiag, 0)
    else if downPair.1 ≥ rightPair.1 then (downPair.1, downPair.2)
    else (rightPair.1, -rightPair.2)
  { score := updI2 st.score i j chosen.1,
    trace := updI2 st.trace i j chosen.2,
    gapSizeDown := updI1 st.gapSizeDown j downPair.2,
    bestGapDown := updI1 st.bestGapDown j downPair.1,
    gapSizeRight := updI1 st.gapSizeRight i rightPair.2,
    bestGapRight := updI1 st.bestGapRight i rightPair.1 }

/-- Inner column loop of calculate_matrix (fuel many columns from j). -/
def fillRowAux (params : SWParameters) (ref alt : List Char) (i : Nat) :
    SWState → Nat → Nat → SWState
  | st, _, 0 => st
  | st, j, fuel + 1 =>
    fillRowAux params ref alt i (fillCell params ref alt st i j) (j + 1) fuel

/-- Outer row loop of calculate_matrix (fuel many rows from i). -/
def fillMatrixAux (params : SWParameters) (ref alt : List Char) :
    SWState → Nat → Nat → SWState
  | st, _, 0 => st
  | st, i, fuel + 1 =>
    fillMatrixAux params ref alt
      (fillRowAux params ref alt i st 1 alt.length) (i + 1) fuel

/-- Model of SWAligner::calculate_matrix. -/
def calculate_matrix (params : SWParameters) (ref alt : List Char) : SWState :=
  fillMatrixAux params ref alt swInit 1 ref.length

/-- Scan of the rightmost column (i from 1, fuel many rows): on a tie the
later row wins, matching the >= comparison. -/
def scanColAux (st : SWState) (A : Nat) : Nat → Nat → Int × Nat → Int × Nat
  | _, 0, best => best
  | i, fuel + 1, best =>
    scanColAux st A (i + 1) fuel
      (if st.score i A ≥ best.1 then (st.score i A, i) else best)

/-- abs_diff from calculate_cigar. -/
def absDiff (x y : Nat) : Nat := if x > y then x - y else y - x

/-- Scan of the bottom row (j from 1, fuel many columns) carrying
(max score, pos_i, pos_j, trailing segment length); a strictly larger score,
or an equal score strictly closer to the diagonal, takes over and records
the alt overhang as the trailing segment. -/
def scanRowAux (st : SWState) (R A : Nat) :
    Nat → Nat → Int × Nat × Nat × Nat → Int × Nat × Nat × Nat
  | _, 0, acc => acc
  | j, fuel + 1, acc =>
    scanRowAux st R A (j + 1) fuel
      (if st.score R j > acc.1 ∨
          (st.score R j = acc.1 ∧ absDiff R j < absDiff acc.2.1 acc.2.2.1) then
        (st.score R j, R, j, A - j)
      else acc)

/-- One iteration of the traceback do-while body: read the trace code at
(i, j); a positive code is a deletion run of that length (moving up), a
negative code an insertion run (moving left), zero a single diagonal match
step; a run equal to the current state is merged into the open segment,
otherwise the open segment is pushed and a new one starts.  Returns the new
(i, j, state, segment, pushed-elements). -/
def walkStep (trace : Nat → Nat → Int) (i j : Nat) (state : Char) (seg : Nat)
    (acc : List (Nat × Char)) : Nat × Nat × Char × Nat × List (Nat × Char) :=
  if 0 < trace i j then
    (i - (trace i j).toNat, j, 'D',
      (if 'D' = state then seg + (trace i j).toNat else (trace i j).toNat),
      (if 'D' = state then acc else (seg, state) :: acc))
  else if trace i j < 0 then
    (i, j - (-(trace i j)).toNat, 'I',
      (if 'I' = state then seg + (-(trace i j)).toNat else (-(trace i j)).toNat),
      (if 'I' = state then acc else (seg, state) :: acc))
  else
    (i - 1, j - 1, 'M',
      (if 'M' = state then seg + 1 else 1),
      (if 'M' = state then acc else (seg, state) :: acc))

theorem walkStep_decreases (trace : Nat → Nat → Int) (i j : Nat) (state : Char)
    (seg : Nat) (acc : List (Nat × Char))
    (h1 : 0 < (walkStep trace i j state seg acc).1)
    (h2 : 0 < (walkStep trace i j state seg acc).2.1) :
    (walkStep trace i j state seg acc).1 +
      (walkStep trace i j state seg acc).2.1 < i + j := by
  unfold walkStep at h1 h2 ⊢
  split_ifs at h1 h2 ⊢ <;> dsimp only at h1 h2 ⊢ <;> omega

/-- The traceback walk of calculate_cigar: iterate the do-while body while
both coordinates stay positive.  The accumulator list is kept in final
cigar order, most recent run first.  The loop is written with an explicit
iteration budget so that it is structurally recursive; each iteration
strictly decreases i + j (walkStep_decreases), so the budget i + j passed
by calculate_cigar is never exhausted before the loop condition fails
(walk_fuel_irrelevant makes this exact). -/
def walk (trace : Nat → Nat → Int) : Nat → Nat → Nat → Char → Nat →
    List (Nat × Char) → Nat × Nat × Char × Nat × List (Nat × Char)
  | 0, i, j, state, seg, acc => walkStep trace i j state seg acc
  | fuel + 1, i, j, state, seg, acc =>
    let s := walkStep trace i j state seg acc
    if 0 < s.1 ∧ 0 < s.2.1 then walk trace fuel s.1 s.2.1 s.2.2.1 s.2.2.2.1 s.2.2.2.2
    else s

/-- Any budget at least i + j gives the same walk result: with such a
budget the loop only stops because its condition fails, exactly like the
do-while loop. -/
theorem walk_fuel_irrelevant (trace : Nat → Nat → Int) :
    ∀ (fuel fuel2 i j : Nat) (state : Char) (seg : Nat) (acc : List (Nat × Char)),
    i + j ≤ fuel → fuel ≤ fuel2 →
    walk trace fuel i j state seg acc = walk trace fuel2 i j state seg acc := by
  intro fuel
  induction fuel with
  | zero =>
    intro fuel2 i j state seg acc hsum _
    have hi : i = 0 := by omega
    have hj : j = 0 := by omega
    subst hi
    subst hj
    cases fuel2 with
    | zero => rfl
    | succ fuel2 =>
      rw [walk, walk]
      rw [if_neg]
      intro hcon
      have := walkStep_decreases trace 0 0 state seg acc hcon.1 hcon.2
      omega
  | succ fuel ih =>
    intro fuel2 i j state seg acc hsum hle
    cases fuel2 with
    | zero => omega
    | succ fuel2 =>
      rw [walk, walk]
      split
      · rename_i hcont
        have hdec := walkStep_decreases trace i j state seg acc hcont.1 hcont.2
        exact ih fuel2 _ _ _ _ _ (by omega) (by omega)
      · rfl

/-- Model of SWAligner::calculate_cigar: choose the traceback start from the
rightmost column then the bottom row, push the trailing soft clip, walk
back, push the final run and the leading soft clip. -/
def calculate_cigar (st : SWState) (R A : Nat) : Nat × List (Nat × Char) :=
  let col := scanColAux st A 1 R (INT_MIN, 0)
  let row := scanRowAux st R A 1 A (col.1, col.2, A, 0)
  let acc0 : List (Nat × Char) := if row.2.2.2 > 0 then [(row.2.2.2, 'S')] else []
  let w := walk st.trace (row.2.1 + row.2.2.1) row.2.1 row.2.2.1 'M' 0 acc0
  let cigar1 := (w.2.2.2.1, w.2.2.1) :: w.2.2.2.2
  (w.1, if w.2.1 > 0 then (w.2.1, 'S') :: cigar1 else cigar1)

/-- Model of SWAligner::align (scalar implementation, part_000): reject
empty inputs, fill the matrix, extract offset and cigar. -/
def align (ref alt : List Char) (params : SWParameters) :
    Except String (Nat × List (Nat × Char)) :=
  if ref.isEmpty ∨ alt.isEmpty then
    .error "Non-null sequences are required for the SW aligner"
  else .ok (calculate_cigar (calculate_matrix params ref alt) ref.length alt.length)

/-- Cigar read length: operators M, I, S, =, X consume the read. -/
def cigarReadLen (c : List (Nat × Char)) : Nat :=
  (c.map (fun e =>
    if e.2 = 'M' ∨ e.2 = 'I' ∨ e.2 = 'S' ∨ e.2 = '=' ∨ e.2 = 'X' then e.1 else 0)).sum

/-- Read length of the non-soft-clip operators only. -/
def cigarReadLenNonS (c : List (Nat × Char)) : Nat :=
  (c.map (fun e =>
    if e.2 = 'M' ∨ e.2 = 'I' ∨ e.2 = '=' ∨ e.2 = 'X' then e.1 else 0)).sum

/-- Cigar reference length: operators M, D, N, =, X consume the
reference. -/
def cigarRefLen (c : List (Nat × Char)) : Nat :=
  (c.map (fun e =>
    if e.2 = 'M' ∨ e.2 = 'D' ∨ e.2 = 'N' ∨ e.2 = '=' ∨ e.2 = 'X' then e.1 else 0)).sum

/-- Length of the leading soft clip run, 0 when the cigar does not start
with S. -/
def softClipPrefix (c : List (Nat × Char)) : Nat :=
  match c with
  | (n, 'S') :: _ => n
  | _ => 0

/-- Length of the trailing soft clip run, 0 when the cigar does not end
with S. -/
def softClipSuffix (c : List (Nat × Char)) : Nat :=
  match c.getLast? with
  | some (n, 'S') => n
  | _ => 0

/-- C9: the scalar SW aligner fails with the invalid-argument error exactly
when one of the two inputs is empty, and returns a result (offset and
cigar) exactly when both are non-empty. -/
theorem align_error_iff (ref alt : List Char) (params : SWParameters) :
    ((align ref alt params =
        Except.error "Non-null sequences are required for the SW aligner") ↔
      (ref = [] ∨ alt = [])) ∧
    ((∃ r, align ref alt params = Except.ok r) ↔ (ref ≠ [] ∧ alt ≠ [])) := by
  unfold align
  by_cases h : ref.isEmpty ∨ alt.isEmpty
  · rw [if_pos h]
    rcases h with h | h <;> rw [List.isEmpty_iff] at h <;>
      simp [h]
  · rw [if_neg h]
    push_neg at h
    obtain ⟨ha, hb⟩ := h
    have ha2 : ref ≠ [] := by simpa [List.isEmpty_iff] using ha
    have hb2 : alt ≠ [] := by simpa [List.isEmpty_iff] using hb
    constructor
    · simp [ha2, hb2]
    · simp [ha2, hb2]

/-! ## Intel SW aligner fast path (intel_smithwaterman.hpp) -/

/-- MINIMAL_MISMATCH_TO_TOLERANCE. -/
def MINIMAL_MISMATCH_TO_TOLERANCE : Nat := 2

/-- The counting loop of IntelSWAligner::is_all_match: scan while the
mismatch count has not exceeded the tolerance and positions remain. -/
def mismatchLoop (ref alt : List Char) (i mismatch : Nat) : Nat :=
  if h : mismatch ≤ MINIMAL_MISMATCH_TO_TOLERANCE ∧ i < ref.length then
    mismatchLoop ref alt (i + 1)
      (if alt.getD i ' ' ≠ ref.getD i ' ' then mismatch + 1 else mismatch)
  else mismatch
termination_by ref.length - i
decreasing_by omega

/-- IntelSWAligner::is_all_match: equal lengths and at most
MINIMAL_MISMATCH_TO_TOLERANCE mismatches. -/
def is_all_match (ref alt : List Char) : Bool :=
  if alt.length = ref.length then decide (mismatchLoop ref alt 0 0 ≤ MINIMAL_MISMATCH_TO_TOLERANCE)
  else false

/-- Model of IntelSWAligner::align: empty-input check, the all-match fast
path returning offset 0 and a single M element over the whole reference,
and otherwise the SIMD backtracking kernel, which is external native code
and is therefore a parameter. -/
def intelAlign
    (simdKernel : List Char → List Char → SWParameters → Nat × List (Nat × Char))
    (ref alt : List Char) (params : SWParameters) :
    Except String (Nat × List (Nat × Char)) :=
  if ref.isEmpty ∨ alt.isEmpty then
    .error "Non-null sequences are required for the SW aligner"
  else if is_all_match ref alt then .ok (0, [(ref.length, 'M')])
  else .ok (simdKernel ref alt params)

/-- Number of mismatching positions between two equal-length sequences. -/
def hamming (ref alt : List Char) : Nat :=
  (List.range ref.length).countP (fun idx => !(alt.getD idx ' ' == ref.getD idx ' '))

theorem mismatchLoop_le_iff (ref alt : List Char) :
    ∀ (fuel i m : Nat), i + fuel = ref.length → m ≤ 3 →
    (mismatchLoop ref alt i m ≤ 2 ↔
      m + (List.range' i fuel).countP
        (fun idx => !(alt.getD idx ' ' == ref.getD idx ' ')) ≤ 2) := by
  intro fuel
  induction fuel with
  | zero =>
    intro i m hi hm
    rw [mismatchLoop, dif_neg (by omega)]
    simp
  | succ fuel ih =>
    intro i m hi hm
    by_cases hm2 : m ≤ 2
    · rw [mismatchLoop, dif_pos ⟨by simpa [MINIMAL_MISMATCH_TO_TOLERANCE] using hm2, by omega⟩]
      rw [List.range'_succ, List.countP_cons]
      split
      · rename_i hx
        rw [ih (i + 1) (m + 1) (by omega) (by omega)]
        have hbeq : (!(alt.getD i ' ' == ref.getD i ' ')) = true := by
          simpa using hx
        rw [hbeq]
        simp only [if_pos rfl]
        simp only [if_true]
        omega
      · rename_i hx
        rw [ih (i + 1) m (by omega) (by omega)]
        simp only [ne_eq, not_not] at hx
        have hbeq : (!(alt.getD i ' ' == ref.getD i ' ')) = false := by
          simpa using hx
        rw [hbeq]
        simp only [Bool.false_eq_true, if_false]
        omega
    · rw [mismatchLoop, dif_neg (by
        intro hcon
        exact hm2 (by simpa [MINIMAL_MISMATCH_TO_TOLERANCE] using hcon.1))]
      omega

theorem is_all_match_of_hamming (ref alt : List Char)
    (hlen : ref.length = alt.length) (hham : hamming ref alt ≤ 2) :
    is_all_match ref alt = true := by
  unfold is_all_match
  rw [if_pos hlen.symm]
  rw [decide_eq_true_iff]
  show mismatchLoop ref alt 0 0 ≤ 2
  rw [mismatchLoop_le_iff ref alt ref.length 0 0 (by omega) (by omega)]
  rw [← List.range_eq_range']
  simpa [hamming] using hham

/-- C4: for non-empty equal-length inputs at Hamming distance at most 2, the
aligner takes the all-match fast path and returns offset 0 with the single
cigar element (|ref|, M), for every parameter pack and every SIMD kernel. -/
theorem intel_align_fast_path
    (simdKernel : List Char → List Char → SWParameters → Nat × List (Nat × Char))
    (ref alt : List Char) (params : SWParameters)
    (h1 : ref ≠ []) (h2 : alt ≠ []) (hlen : ref.length = alt.length)
    (hham : hamming ref alt ≤ 2) :
    intelAlign simdKernel ref alt params = .ok (0, [(ref.length, 'M')]) := by
  unfold intelAlign
  rw [if_neg (by simp [List.isEmpty_iff, h1, h2])]
  rw [if_pos (is_all_match_of_hamming ref alt hlen hham)]

/-! ### Matrix fill invariants for the scalar SW aligner -/

/-- Trace codes are bounded by their cell coordinates: a positive (deletion)
code at (a, b) is at most a, a negative (insertion) code has magnitude at
most b. -/
def TraceBounds (st : SWState) : Prop :=
  ∀ a b, (0 < st.trace a b → st.trace a b ≤ (a : Int)) ∧
    (st.trace a b < 0 → -(st.trace a b) ≤ (b : Int))

/-- Invariant holding while row i is being filled and column j is next:
gap-down sizes are in [0, i] (still at most i-1 in columns not yet reached
this row), the row gap-right size is in [0, j-1], untouched rows keep
gap-right size 0, and all written trace codes are bounded. -/
def RowInvA (i j : Nat) (st : SWState) : Prop :=
  (∀ b, 0 ≤ st.gapSizeDown b) ∧
  (∀ b, j ≤ b → st.gapSizeDown b ≤ (i : Int) - 1) ∧
  (∀ b, st.gapSizeDown b ≤ (i : Int)) ∧
  (0 ≤ st.gapSizeRight i ∧ st.gapSizeRight i ≤ (j : Int) - 1) ∧
  (∀ a, i + 1 ≤ a → st.gapSizeRight a = 0) ∧
  TraceBounds st

/-- Invariant between rows, before row i is filled. -/
def MatInv (i : Nat) (st : SWState) : Prop :=
  (∀ b, 0 ≤ st.gapSizeDown b ∧ st.gapSizeDown b ≤ (i : Int) - 1) ∧
  (∀ a, i ≤ a → st.gapSizeRight a = 0) ∧
  TraceBounds st

theorem fillCell_rowInv (params : SWParameters) (ref alt : List Char)
    (st : SWState) (i j : Nat) (hi : 1 ≤ i) (hj : 1 ≤ j)
    (hInv : RowInvA i j st) :
    RowInvA i (j + 1) (fillCell params ref alt st i j) := by
  obtain ⟨hgd0, hgdHi, hgdAll, ⟨hgr0, hgrJ⟩, hgrRows, hT⟩ := hInv
  have hgdj : st.gapSizeDown j ≤ (i : Int) - 1 := hgdHi j (le_refl j)
  have hgd0j := hgd0 j
  simp only [fillCell]
  refine ⟨?_, ?_, ?_, ⟨?_, ?_⟩, ?_, ?_⟩
  · intro b
    simp only [updI1]
    split
    · split_ifs <;> dsimp only <;> omega
    · exact hgd0 b
  · intro b hb
    simp only [updI1]
    rw [if_neg (by omega)]
    exact hgdHi b (by omega)
  · intro b
    simp only [updI1]
    split
    · split_ifs <;> dsimp only <;> omega
    · exact hgdAll b
  · simp only [updI1, if_pos rfl]
    split_ifs <;> dsimp only <;> omega
  · simp only [updI1, if_pos rfl]
    split_ifs <;> dsimp only <;> omega
  · intro a ha
    simp only [updI1]
    rw [if_neg (by omega)]
    exact hgrRows a ha
  · intro a b
    simp only [updI2]
    split
    · rename_i hab
      obtain ⟨rfl, rfl⟩ := hab
      constructor <;> intro hsign <;>
        split_ifs at hsign ⊢ <;> dsimp only at hsign ⊢ <;> omega
    · exact hT a b

theorem fillRowAux_rowInv (params : SWParameters) (ref alt : List Char)
    (i : Nat) (hi : 1 ≤ i) :
    ∀ (fuel j : Nat) (st : SWState), 1 ≤ j → RowInvA i j st →
    RowInvA i (j + fuel) (fillRowAux params ref alt i st j fuel) := by
  intro fuel
  induction fuel with
  | zero => intro j st _ hInv; exact hInv
  | succ fuel ih =>
    intro j st hj hInv
    rw [fillRowAux]
    have := ih (j + 1) (fillCell params ref alt st i j) (by omega)
      (fillCell_rowInv params ref alt st i j hi hj hInv)
    rw [show j + (fuel + 1) = j + 1 + fuel by omega]
    exact this

theorem matInv_to_rowInv (i : Nat) (hi : 1 ≤ i) (st : SWState)
    (hInv : MatInv i st) : RowInvA i 1 st := by
  obtain ⟨hgd, hgr, hT⟩ := hInv
  refine ⟨fun b => (hgd b).1, fun b _ => (hgd b).2, fun b => by have := (hgd b).2; omega,
    ⟨?_, ?_⟩, fun a ha => hgr a (by omega), hT⟩
  · rw [hgr i (le_refl i)]
  · rw [hgr i (le_refl i)]
    simp

theorem rowInv_to_matInv (i j : Nat) (st : SWState) (hInv : RowInvA i j st) :
    MatInv (i + 1) st := by
  obtain ⟨hgd0, _, hgdAll, _, hgrRows, hT⟩ := hInv
  refine ⟨fun b => ⟨hgd0 b, by have := hgdAll b; push_cast; omega⟩,
    fun a ha => hgrRows a ha, hT⟩

theorem fillMatrixAux_matInv (params : SWParameters) (ref alt : List Char) :
    ∀ (fuel i : Nat) (st : SWState), 1 ≤ i → MatInv i st →
    MatInv (i + fuel) (fillMatrixAux params ref alt st i fuel) := by
  intro fuel
  induction fuel with
  | zero => intro i st _ hInv; exact hInv
  | succ fuel ih =>
    intro i st hi hInv
    rw [fillMatrixAux]
    have hrow := fillRowAux_rowInv params ref alt i hi alt.length 1 st
      (le_refl 1) (matInv_to_rowInv i hi st hInv)
    have hmat := rowInv_to_matInv i (1 + alt.length) _ hrow
    have := ih (i + 1) _ (by omega) hmat
    rw [show i + (fuel + 1) = i + 1 + fuel by omega]
    exact this

theorem swInit_matInv : MatInv 1 swInit := by
  refine ⟨fun b => ⟨le_refl 0, by simp [swInit]⟩, fun a _ => rfl, fun a b => ?_⟩
  simp [swInit]

/-- The filled matrix has bounded trace codes everywhere. -/
theorem calculate_matrix_traceBounds (params : SWParameters)
    (ref alt : List Char) : TraceBounds (calculate_matrix params ref alt) :=
  (fillMatrixAux_matInv params ref alt ref.length 1 swInit (le_refl 1)
    swInit_matInv).2.2

/-! ### Row-zero preservation and the first-row score lower bound -/

theorem fillCell_score_other (params : SWParameters) (ref alt : List Char)
    (st : SWState) (i j a b : Nat) (h : ¬(a = i ∧ b = j)) :
    (fillCell params ref alt st i j).score a b = st.score a b := by
  simp only [fillCell, updI2]
  rw [if_neg h]

theorem fillCell_score_diag (params : SWParameters) (ref alt : List Char)
    (st : SWState) (i j : Nat) :
    st.score (i - 1) (j - 1) + min params.w_match params.w_mismatch ≤
      (fillCell params ref alt st i j).score i j := by
  simp only [fillCell, updI2]
  simp only [and_self, if_true]
  split_ifs <;> dsimp only <;> omega

theorem fillRowAux_score_untouched (params : SWParameters) (ref alt : List Char)
    (i : Nat) :
    ∀ (fuel j : Nat) (st : SWState) (a b : Nat), (a ≠ i ∨ b < j) →
    (fillRowAux params ref alt i st j fuel).score a b = st.score a b := by
  intro fuel
  induction fuel with
  | zero => intro j st a b _; rfl
  | succ fuel ih =>
    intro j st a b hab
    rw [fillRowAux]
    rw [ih (j + 1) _ a b (by omega)]
    apply fillCell_score_other
    intro hcon
    obtain ⟨rfl, rfl⟩ := hcon
    omega

theorem fillMatrixAux_score_untouched (params : SWParameters)
    (ref alt : List Char) :
    ∀ (fuel i : Nat) (st : SWState) (a b : Nat), a < i →
    (fillMatrixAux params ref alt st i fuel).score a b = st.score a b := by
  intro fuel
  induction fuel with
  | zero => intro i st a b _; rfl
  | succ fuel ih =>
    intro i st a b ha
    rw [fillMatrixAux]
    rw [ih (i + 1) _ a b (by omega)]
    exact fillRowAux_score_untouched params ref alt i alt.length 1 st a b
      (Or.inl (by omega))

theorem fillRowAux_row0 (params : SWParameters) (ref alt : List Char) :
    ∀ (fuel j : Nat) (st : SWState), 1 ≤ j → (∀ b, st.score 0 b = 0) →
    ∀ b, (fillRowAux params ref alt 1 st j fuel).score 0 b = 0 := by
  intro fuel
  induction fuel with
  | zero => intro j st _ h0 b; exact h0 b
  | succ fuel ih =>
    intro j st hj h0 b
    rw [fillRowAux]
    apply ih (j + 1) _ (by omega)
    intro b2
    rw [fillCell_score_other params ref alt st 1 j 0 b2 (by omega)]
    exact h0 b2

theorem fillRowAux_row1_bound (params : SWParameters) (ref alt : List Char) :
    ∀ (fuel j : Nat) (st : SWState), 1 ≤ fuel → (∀ b, st.score 0 b = 0) →
    min params.w_match params.w_mismatch ≤
      (fillRowAux params ref alt 1 st j fuel).score 1 (j + fuel - 1) := by
  intro fuel
  induction fuel with
  | zero => intro j st hfuel _; omega
  | succ fuel ih =>
    intro j st _ h0
    cases fuel with
    | zero =>
      rw [fillRowAux, fillRowAux]
      have := fillCell_score_diag params ref alt st 1 j
      rw [h0 (j - 1)] at this
      simpa using this
    | succ fuel2 =>
      rw [fillRowAux]
      have h02 : ∀ b, (fillCell params ref alt st 1 j).score 0 b = 0 := by
        intro b
        rw [fillCell_score_other params ref alt st 1 j 0 b (by omega)]
        exact h0 b
      have := ih (j + 1) (fillCell params ref alt st 1 j) (by omega) h02
      rw [show j + 1 + (fuel2 + 1) - 1 = j + (fuel2 + 1 + 1) - 1 by omega] at this
      exact this

/-- The first-row score in the rightmost column of the filled matrix is at
least min(w_match, w_mismatch). -/
theorem calculate_matrix_score_1A (params : SWParameters) (ref alt : List Char)
    (href : ref ≠ []) (halt : alt ≠ []) :
    min params.w_match params.w_mismatch ≤
      (calculate_matrix params ref alt).score 1 alt.length := by
  unfold calculate_matrix
  cases hR : ref.length with
  | zero => exact absurd (List.length_eq_zero.mp hR) href
  | succ r =>
    rw [fillMatrixAux]
    rw [fillMatrixAux_score_untouched params ref alt r 2 _ 1 alt.length (by omega)]
    have hz : ∀ b, swInit.score 0 b = 0 := fun b => rfl
    cases hA : alt.length with
    | zero => exact absurd (List.length_eq_zero.mp hA) halt
    | succ a =>
      have := fillRowAux_row1_bound params ref alt (a + 1) 1 swInit (by omega) hz
      rw [show 1 + (a + 1) - 1 = a + 1 by omega] at this
      exact this

/-! ### Traceback start selection -/

theorem scanColAux_mem (st : SWState) (A : Nat) (P : Nat → Prop) :
    ∀ (fuel i : Nat) (best : Int × Nat), P best.2 →
    (∀ k, i ≤ k → k < i + fuel → P k) →
    P ((scanColAux st A i fuel best).2) := by
  intro fuel
  induction fuel with
  | zero => intro i best hbest _; exact hbest
  | succ fuel ih =>
    intro i best hbest hrange
    rw [scanColAux]
    apply ih
    · split
      · exact hrange i (le_refl i) (by omega)
      · exact hbest
    · intro k hk1 hk2
      exact hrange k (by omega) (by omega)

/-- The invariant carried by the bottom-row scan: pos_i stays in [1, R],
pos_j in [1, A], and the recorded trailing segment is the overhang
A - pos_j. -/
def RowScanInv (R A : Nat) (acc : Int × Nat × Nat × Nat) : Prop :=
  (1 ≤ acc.2.1 ∧ acc.2.1 ≤ R) ∧ (1 ≤ acc.2.2.1 ∧ acc.2.2.1 ≤ A) ∧
    acc.2.2.2 = A - acc.2.2.1

theorem scanRowAux_inv (st : SWState) (R A : Nat) (hR : 1 ≤ R) :
    ∀ (fuel j : Nat) (acc : Int × Nat × Nat × Nat),
    (∀ k, j ≤ k → k < j + fuel → 1 ≤ k ∧ k ≤ A) → RowScanInv R A acc →
    RowScanInv R A (scanRowAux st R A j fuel acc) := by
  intro fuel
  induction fuel with
  | zero => intro j acc _ hacc; exact hacc
  | succ fuel ih =>
    intro j acc hrange hacc
    rw [scanRowAux]
    apply ih
    · intro k hk1 hk2
      exact hrange k (by omega) (by omega)
    · split
      · obtain ⟨hj1, hj2⟩ := hrange j (le_refl j) (by omega)
        exact ⟨⟨hR, le_refl R⟩, ⟨hj1, hj2⟩, rfl⟩
      · exact hacc

/-! ### Traceback walk accounting -/

theorem cigarReadLenNonS_cons (n : Nat) (c : Char) (rest : List (Nat × Char)) :
    cigarReadLenNonS ((n, c) :: rest) =
      (if c = 'M' ∨ c = 'I' ∨ c = '=' ∨ c = 'X' then n else 0) +
        cigarReadLenNonS rest := by
  simp [cigarReadLenNonS]

theorem cigarReadLen_cons (n : Nat) (c : Char) (rest : List (Nat × Char)) :
    cigarReadLen ((n, c) :: rest) =
      (if c = 'M' ∨ c = 'I' ∨ c = 'S' ∨ c = '=' ∨ c = 'X' then n else 0) +
        cigarReadLen rest := by
  simp [cigarReadLen]

theorem cigarRefLen_cons (n : Nat) (c : Char) (rest : List (Nat × Char)) :
    cigarRefLen ((n, c) :: rest) =
      (if c = 'M' ∨ c = 'D' ∨ c = 'N' ∨ c = '=' ∨ c = 'X' then n else 0) +
        cigarRefLen rest := by
  simp [cigarRefLen]

theorem walkStep_spec (trace : Nat → Nat → Int)
    (hT : ∀ a b, (0 < trace a b → trace a b ≤ (a : Int)) ∧
      (trace a b < 0 → -(trace a b) ≤ (b : Int)))
    (i j : Nat) (state : Char) (seg : Nat) (acc : List (Nat × Char))
    (hi : 1 ≤ i) (hj : 1 ≤ j) :
    ∀ i2 j2 st2 seg2 acc2,
    walkStep trace i j state seg acc = (i2, j2, st2, seg2, acc2) →
    (cigarReadLenNonS ((seg2, st2) :: acc2) + j2 =
      cigarReadLenNonS ((seg, state) :: acc) + j) ∧
    (cigarRefLen ((seg2, st2) :: acc2) + i2 =
      cigarRefLen ((seg, state) :: acc) + i) ∧
    (cigarReadLen ((seg2, st2) :: acc2) + j2 =
      cigarReadLen ((seg, state) :: acc) + j) ∧
    (st2 = 'M' ∨ st2 = 'I' ∨ st2 = 'D') ∧
    (acc2 = acc ∨ acc2 = (seg, state) :: acc) ∧
    i2 ≤ i ∧ j2 ≤ j := by
  intro i2 j2 st2 seg2 acc2 heq
  have hTij := hT i j
  unfold walkStep at heq
  rcases lt_trichotomy (trace i j) 0 with ht | ht | ht
  · -- insertion run
    rw [if_neg (by omega), if_pos ht] at heq
    injection heq with h1 hrest
    injection hrest with h2 hrest
    injection hrest with h3 hrest
    injection hrest with h4 h5
    subst h1
    subst h2
    subst h3
    subst h4
    subst h5
    have hstep1 : 1 ≤ (-(trace i j)).toNat := by omega
    have hstep2 : (-(trace i j)).toNat ≤ j := by
      have := hTij.2 ht
      omega
    by_cases hmerge : 'I' = state
    · subst hmerge
      simp only [if_pos rfl]
      refine ⟨?_, ?_, ?_, by simp, Or.inl rfl, by omega, by omega⟩
      · simp [cigarReadLenNonS_cons]
        omega
      · simp [cigarRefLen_cons]
      · simp [cigarReadLen_cons]
        omega
    · simp only [if_neg hmerge]
      refine ⟨?_, ?_, ?_, by simp, by simp, by omega, by omega⟩
      · simp [cigarReadLenNonS_cons]
        omega
      · simp [cigarRefLen_cons]
      · simp [cigarReadLen_cons]
        omega
  · -- diagonal match step
    rw [if_neg (by omega), if_neg (by omega)] at heq
    injection heq with h1 hrest
    injection hrest with h2 hrest
    injection hrest with h3 hrest
    injection hrest with h4 h5
    subst h1
    subst h2
    subst h3
    subst h4
    subst h5
    by_cases hmerge : 'M' = state
    · subst hmerge
      simp only [if_pos rfl]
      refine ⟨?_, ?_, ?_, by simp, Or.inl rfl, by omega, by omega⟩
      · simp [cigarReadLenNonS_cons]
        omega
      · simp [cigarRefLen_cons]
        omega
      · simp [cigarReadLen_cons]
        omega
    · simp only [if_neg hmerge]
      refine ⟨?_, ?_, ?_, by simp, by simp, by omega, by omega⟩
      · simp [cigarReadLenNonS_cons]
        omega
      · simp [cigarRefLen_cons]
        omega
      · simp [cigarReadLen_cons]
        omega
  · -- deletion run
    rw [if_pos ht] at heq
    injection heq with h1 hrest
    injection hrest with h2 hrest
    injection hrest with h3 hrest
    injection hrest with h4 h5
    subst h1
    subst h2
    subst h3
    subst h4
    subst h5
    have hstep1 : 1 ≤ (trace i j).toNat := by omega
    have hstep2 : (trace i j).toNat ≤ i := by
      have := hTij.1 ht
      omega
    by_cases hmerge : 'D' = state
    · subst hmerge
      simp only [if_pos rfl]
      refine ⟨?_, ?_, ?_, by simp, Or.inl rfl, by omega, by omega⟩
      · simp [cigarReadLenNonS_cons]
      · simp [cigarRefLen_cons]
        omega
      · simp [cigarReadLen_cons]
    · simp only [if_neg hmerge]
      refine ⟨?_, ?_, ?_, by simp, by simp, by omega, by omega⟩
      · simp [cigarReadLenNonS_cons]
      · simp [cigarRefLen_cons]
        omega
      · simp [cigarReadLen_cons]

theorem walk_spec (trace : Nat → Nat → Int)
    (hT : ∀ a b, (0 < trace a b → trace a b ≤ (a : Int)) ∧
      (trace a b < 0 → -(trace a b) ≤ (b : Int))) :
    ∀ (fuel i j : Nat) (state : Char) (seg : Nat) (acc : List (Nat × Char)),
    1 ≤ i → 1 ≤ j → (state = 'M' ∨ state = 'I' ∨ state = 'D') →
    ∀ i2 j2 st2 seg2 acc2,
    walk trace fuel i j state seg acc = (i2, j2, st2, seg2, acc2) →
    (cigarReadLenNonS ((seg2, st2) :: acc2) + j2 =
      cigarReadLenNonS ((seg, state) :: acc) + j) ∧
    (cigarRefLen ((seg2, st2) :: acc2) + i2 =
      cigarRefLen ((seg, state) :: acc) + i) ∧
    (cigarReadLen ((seg2, st2) :: acc2) + j2 =
      cigarReadLen ((seg, state) :: acc) + j) ∧
    (st2 = 'M' ∨ st2 = 'I' ∨ st2 = 'D') ∧
    (∃ l, acc2 = l ++ acc ∧ ∀ e ∈ l, e.2 = 'M' ∨ e.2 = 'I' ∨ e.2 = 'D') ∧
    i2 ≤ i ∧ j2 ≤ j := by
  intro fuel
  induction fuel with
  | zero =>
    intro i j state seg acc hi hj hstate i2 j2 st2 seg2 acc2 heq
    rw [walk] at heq
    obtain ⟨e1, e2, e3, e4, e5, e6, e7⟩ :=
      walkStep_spec trace hT i j state seg acc hi hj i2 j2 st2 seg2 acc2 heq
    refine ⟨e1, e2, e3, e4, ?_, e6, e7⟩
    rcases e5 with h5 | h5
    · exact ⟨[], by rw [h5]; simp, by simp⟩
    · refine ⟨[(seg, state)], by rw [h5]; simp, ?_⟩
      intro e he
      simp only [List.mem_singleton] at he
      subst he
      exact hstate
  | succ fuel ih =>
    intro i j state seg acc hi hj hstate i2 j2 st2 seg2 acc2 heq
    rw [walk] at heq
    rcases hs : walkStep trace i j state seg acc with ⟨i3, j3, st3, seg3, acc3⟩
    rw [hs] at heq
    obtain ⟨e1, e2, e3, e4, e5, e6, e7⟩ :=
      walkStep_spec trace hT i j state seg acc hi hj i3 j3 st3 seg3 acc3 hs
    dsimp only at heq
    by_cases hcont : 0 < i3 ∧ 0 < j3
    · rw [if_pos hcont] at heq
      obtain ⟨f1, f2, f3, f4, f5, f6, f7⟩ :=
        ih i3 j3 st3 seg3 acc3 (by omega) (by omega) e4 i2 j2 st2 seg2 acc2 heq
      refine ⟨by omega, by omega, by omega, f4, ?_, by omega, by omega⟩
      obtain ⟨l, rfl, hl⟩ := f5
      rcases e5 with h5 | h5
      · exact ⟨l, by rw [h5], hl⟩
      · refine ⟨l ++ [(seg, state)], by rw [h5]; simp, ?_⟩
        intro e he
        rcases List.mem_append.mp he with he | he
        · exact hl e he
        · simp only [List.mem_singleton] at he
          subst he
          exact hstate
    · rw [if_neg hcont] at heq
      injection heq with g1 grest
      injection grest with g2 grest
      injection grest with g3 grest
      injection grest with g4 g5
      subst g1
      subst g2
      subst g3
      subst g4
      subst g5
      refine ⟨e1, e2, e3, e4, ?_, e6, e7⟩
      rcases e5 with h5 | h5
      · exact ⟨[], by rw [h5]; simp, by simp⟩
      · refine ⟨[(seg, state)], by rw [h5]; simp, ?_⟩
        intro e he
        simp only [List.mem_singleton] at he
        subst he
        exact hstate

theorem softClipPrefix_cons (n : Nat) (c : Char) (rest : List (Nat × Char)) :
    softClipPrefix ((n, c) :: rest) = if c = 'S' then n else 0 := by
  by_cases h : c = 'S'
  · subst h
    simp [softClipPrefix]
  · rw [if_neg h]
    unfold softClipPrefix
    split
    · rename_i m tail heq
      injection heq with h1 h2
      injection h1 with h1a h1b
      exact absurd h1b h
    · rfl

theorem softClipSuffix_concat (l : List (Nat × Char)) (s : Nat) :
    softClipSuffix (l ++ [(s, 'S')]) = s := by
  unfold softClipSuffix
  rw [List.getLast?_concat]
  rfl

theorem softClipSuffix_cons_cons (a b : Nat × Char) (l : List (Nat × Char)) :
    softClipSuffix (a :: b :: l) = softClipSuffix (b :: l) := by
  unfold softClipSuffix
  rw [List.getLast?_cons_cons]

theorem softClipSuffix_allMID (l : List (Nat × Char))
    (h : ∀ e ∈ l, e.2 = 'M' ∨ e.2 = 'I' ∨ e.2 = 'D') :
    softClipSuffix l = 0 := by
  unfold softClipSuffix
  cases hl : l.getLast? with
  | none => rfl
  | some e =>
    have hmem : e ∈ l := by
      have hx : e ∈ l.getLast? := Option.mem_def.mpr hl
      obtain ⟨hne, hx2⟩ := List.mem_getLast?_eq_getLast hx
      rw [hx2]
      exact List.getLast_mem hne
    obtain ⟨m, c⟩ := e
    have := h _ hmem
    simp only at this
    rcases this with rfl | rfl | rfl <;> rfl

/-- C1: on every successful run of the scalar SW aligner with non-empty
inputs (and int parameters, modelled by the INT_MIN lower bound on w_match
and w_mismatch), the returned cigar has read length at most |alt| (in fact
the soft clips and read-consuming operators account for all of alt:
soft-clip prefix + non-S read length + soft-clip suffix = |alt|), and
offset + reference length is at most |ref|. -/
theorem sw_align_invariants (ref alt : List Char) (params : SWParameters)
    (href : ref ≠ []) (halt : alt ≠ [])
    (hm1 : INT_MIN ≤ params.w_match) (hm2 : INT_MIN ≤ params.w_mismatch) :
    ∀ off cig, align ref alt params = Except.ok (off, cig) →
      cigarReadLen cig ≤ alt.length ∧
      softClipPrefix cig + cigarReadLenNonS cig + softClipSuffix cig = alt.length ∧
      off + cigarRefLen cig ≤ ref.length := by
  intro off cig heq
  unfold align at heq
  rw [if_neg (by simp [List.isEmpty_iff, href, halt])] at heq
  rw [Except.ok.injEq] at heq
  have hcalc : calculate_cigar (calculate_matrix params ref alt)
      ref.length alt.length = (off, cig) := heq
  have hR : 1 ≤ ref.length := List.length_pos.mpr href
  have hA : 1 ≤ alt.length := List.length_pos.mpr halt
  have hT : TraceBounds (calculate_matrix params ref alt) :=
    calculate_matrix_traceBounds params ref alt
  have hscore := calculate_matrix_score_1A params ref alt href halt
  -- the traceback start cell
  have hcol : 1 ≤ (scanColAux (calculate_matrix params ref alt) alt.length 1
      ref.length (INT_MIN, 0)).2 ∧
      (scanColAux (calculate_matrix params ref alt) alt.length 1 ref.length
        (INT_MIN, 0)).2 ≤ ref.length := by
    cases hRv : ref.length with
    | zero => omega
    | succ r =>
      rw [scanColAux]
      rw [if_pos (by
        show (calculate_matrix params ref alt).score 1 alt.length ≥ INT_MIN
        have : INT_MIN ≤ min params.w_match params.w_mismatch := by
          unfold INT_MIN at hm1 hm2 ⊢
          omega
        omega)]
      refine scanColAux_mem (calculate_matrix params ref alt) alt.length
        (fun k => 1 ≤ k ∧ k ≤ r + 1) r 2 _ (by omega) ?_
      intro k hk1 hk2
      omega
  have hrowInv : RowScanInv ref.length alt.length
      (scanRowAux (calculate_matrix params ref alt) ref.length alt.length 1
        alt.length
        ((scanColAux (calculate_matrix params ref alt) alt.length 1 ref.length
          (INT_MIN, 0)).1,
         (scanColAux (calculate_matrix params ref alt) alt.length 1 ref.length
          (INT_MIN, 0)).2, alt.length, 0)) := by
    apply scanRowAux_inv _ _ _ hR
    · intro k hk1 hk2
      omega
    · exact ⟨⟨hcol.1, hcol.2⟩, ⟨hA, le_refl _⟩, by simp⟩
  generalize hrowv : scanRowAux (calculate_matrix params ref alt) ref.length
      alt.length 1 alt.length
      ((scanColAux (calculate_matrix params ref alt) alt.length 1 ref.length
        (INT_MIN, 0)).1,
       (scanColAux (calculate_matrix params ref alt) alt.length 1 ref.length
        (INT_MIN, 0)).2, alt.length, 0) = row at hrowInv
  obtain ⟨hpi, hpj, hseg⟩ := hrowInv
  -- unfold calculate_cigar and rewrite the scans and the walk
  unfold calculate_cigar at hcalc
  dsimp only at hcalc
  rw [hrowv] at hcalc
  rcases hw : walk (calculate_matrix params ref alt).trace (row.2.1 + row.2.2.1)
      row.2.1 row.2.2.1 'M'
      0 (if row.2.2.2 > 0 then [(row.2.2.2, 'S')] else []) with
    ⟨wi, wj, wst, wseg, wacc⟩
  rw [hw] at hcalc
  dsimp only at hcalc
  obtain ⟨g1, g2, g3, g4, g5, g6, g7⟩ := walk_spec
    (calculate_matrix params ref alt).trace
    (fun a b => hT a b) (row.2.1 + row.2.2.1) row.2.1 row.2.2.1 'M' 0
    (if row.2.2.2 > 0 then [(row.2.2.2, 'S')] else []) hpi.1 hpj.1
    (Or.inl rfl) wi wj wst wseg wacc hw
  -- accounting for the initial virtual element and the trailing clip
  have hacc0NonS : cigarReadLenNonS ((0, 'M') ::
      (if row.2.2.2 > 0 then [(row.2.2.2, 'S')] else [])) = 0 := by
    split <;> simp [cigarReadLenNonS]
  have hacc0Ref : cigarRefLen ((0, 'M') ::
      (if row.2.2.2 > 0 then [(row.2.2.2, 'S')] else [])) = 0 := by
    split <;> simp [cigarRefLen]
  have hacc0Read : cigarReadLen ((0, 'M') ::
      (if row.2.2.2 > 0 then [(row.2.2.2, 'S')] else [])) = row.2.2.2 := by
    split
    · simp [cigarReadLen]
    · rename_i hz
      simp only [Nat.not_lt, Nat.le_zero] at hz
      simp [cigarReadLen, hz]
  rw [hacc0NonS] at g1
  rw [hacc0Ref] at g2
  rw [hacc0Read, hseg] at g3
  -- identify offset and cigar
  have hoff : off = wi := ((Prod.mk.injEq _ _ _ _).mp hcalc.symm).1
  have hcig : cig = if wj > 0 then (wj, 'S') :: (wseg, wst) :: wacc
      else (wseg, wst) :: wacc := ((Prod.mk.injEq _ _ _ _).mp hcalc.symm).2
  -- component computations on the final cigar
  have hWread : cigarReadLen ((wseg, wst) :: wacc) + wj = alt.length := by
    omega
  have hWnonS : cigarReadLenNonS ((wseg, wst) :: wacc) + wj = row.2.2.1 := by
    omega
  have hWref : cigarRefLen ((wseg, wst) :: wacc) + wi = row.2.1 := by
    omega
  have hsuffix : softClipSuffix ((wseg, wst) :: wacc) =
      alt.length - row.2.2.1 := by
    obtain ⟨l, hlacc, hl⟩ := g5
    by_cases hz : row.2.2.2 > 0
    · rw [if_pos hz] at hlacc
      rw [hlacc]
      rw [show (wseg, wst) :: (l ++ [(row.2.2.2, 'S')]) =
        ((wseg, wst) :: l) ++ [(row.2.2.2, 'S')] by simp]
      rw [softClipSuffix_concat]
      omega
    · rw [if_neg hz] at hlacc
      rw [hlacc, List.append_nil]
      rw [softClipSuffix_allMID]
      · omega
      · intro e he
        rcases List.mem_cons.mp he with rfl | he2
        · exact g4
        · exact hl e he2
  have hprefix0 : softClipPrefix ((wseg, wst) :: wacc) = 0 := by
    rw [softClipPrefix_cons]
    rcases g4 with rfl | rfl | rfl <;> simp
  refine ⟨?_, ?_, ?_⟩
  · rw [hcig]
    split
    · rw [cigarReadLen_cons]
      rw [show (if ('S' : Char) = 'M' ∨ 'S' = 'I' ∨ 'S' = 'S' ∨ 'S' = '=' ∨
        'S' = 'X' then wj else 0) = wj by simp]
      omega
    · omega
  · rw [hcig]
    split
    · rename_i hwj
      rw [softClipPrefix_cons, if_pos rfl]
      rw [cigarReadLenNonS_cons]
      rw [show (if ('S' : Char) = 'M' ∨ 'S' = 'I' ∨ 'S' = '=' ∨ 'S' = 'X'
        then wj else 0) = 0 by simp]
      rw [softClipSuffix_cons_cons]
      rw [hsuffix]
      omega
    · rename_i hwj
      simp only [Nat.not_lt, Nat.le_zero] at hwj
      rw [hprefix0, hsuffix]
      omega
  · rw [hcig, hoff]
    split
    · rw [cigarRefLen_cons]
      rw [show (if ('S' : Char) = 'M' ∨ 'S' = 'D' ∨ 'S' = 'N' ∨ 'S' = '=' ∨
        'S' = 'X' then wj else 0) = 0 by simp]
      omega
    · omega

theorem sw_align_invariants_witness :
    ((['A', 'A', 'C', 'C', 'C'] : List Char) ≠ [] ∧ (['A', 'C', 'G'] : List Char) ≠ [] ∧
      INT_MIN ≤ SW_ORIGINAL_DEFAULT.w_match ∧ INT_MIN ≤ SW_ORIGINAL_DEFAULT.w_mismatch ∧
      align ['A', 'A', 'C', 'C', 'C'] ['A', 'C', 'G'] SW_ORIGINAL_DEFAULT =
        Except.ok (1, [(3, 'M')])) ∧
    (cigarReadLen [(3, 'M')] ≤ (['A', 'C', 'G'] : List Char).length ∧
      softClipPrefix [(3, 'M')] + cigarReadLenNonS [(3, 'M')] +
        softClipSuffix [(3, 'M')] = (['A', 'C', 'G'] : List Char).length ∧
      1 + cigarRefLen [(3, 'M')] ≤ (['A', 'A', 'C', 'C', 'C'] : List Char).length) :=
  ⟨⟨by decide, by decide, by decide, by decide, by decide⟩,
    sw_align_invariants ['A', 'A', 'C', 'C', 'C'] ['A', 'C', 'G'] SW_ORIGINAL_DEFAULT
      (by decide) (by decide) (by decide) (by decide) 1 [(3, 'M')] (by decide)⟩

theorem intel_align_fast_path_witness :
    ((['A', 'C'] : List Char) ≠ [] ∧ (['A', 'G'] : List Char) ≠ [] ∧
      (['A', 'C'] : List Char).length = (['A', 'G'] : List Char).length ∧
      hamming ['A', 'C'] ['A', 'G'] ≤ 2) ∧
    intelAlign (fun _ _ _ => (0, [])) ['A', 'C'] ['A', 'G'] SW_ORIGINAL_DEFAULT =
      .ok (0, [((['A', 'C'] : List Char).length, 'M')]) :=
  ⟨⟨by decide, by decide, by decide, by decide⟩,
    intel_align_fast_path (fun _ _ _ => (0, [])) ['A', 'C'] ['A', 'G']
      SW_ORIGINAL_DEFAULT (by decide) (by decide) (by decide) (by decide)⟩

end HC
